import Mathlib

/-!
Shallow embedding of `modelx/io/baseio.py`: the path-safety helper
`is_in_root`, the bidirectional dictionary `BiDict`, the `IOManager`
operations, and the `BaseIOSpec` pickling protocol, together with proofs
about the invariants the specification states for them.

Modelling conventions:
* Python object identity is modelled by natural-number identities
  (`IOId` for `BaseSharedIO` objects, `SpecId` for `BaseIOSpec` objects)
  allocated from a counter `nextId`; live objects are kept in association
  lists (`heap`, `specHeap`).  Python guarantees that `id()` of a newly
  created object differs from the `id()` of every live object, which the
  counter models.
* Python `dict` is modelled by an association list whose keys are unique;
  `assocSet` overwrites, `assocDel` deletes, `assocGet` looks up.
* A method that can raise returns the state at the moment of the raise
  together with `some message`; a normal return carries `none`.
* Abstract hooks (`_on_load_value`, `_can_add_spec` via the specs'
  `_can_add_other`, `_can_update_value`, update hooks) raise or succeed by
  parameters, since `BaseIOSpec`/`BaseSharedIO` leave them abstract.
-/

namespace Modelx

/-! ## Paths

`pathlib` paths are modelled as a flag for absoluteness plus the posix
string.  Only `is_absolute`, equality, and (for `is_in_root`) the posix
text matter to the code under study. -/

structure MPath where
  isAbs : Bool
  posix : String
deriving DecidableEq, Repr

/-! ## `is_in_root` (baseio.py lines 18-33)

`pos.split("/")` with a one-character separator: splitting a string on
`'/'`, keeping empty segments, as Python `str.split` does. -/

def splitSlashAux : List Char → List Char → List String
  | [], acc => [String.mk acc.reverse]
  | c :: rest, acc =>
      if c = '/' then String.mk acc.reverse :: splitSlashAux rest []
      else splitSlashAux rest (c :: acc)

def splitSlash (s : String) : List String :=
  splitSlashAux s.toList []

/-- One scanning step of the `while` loop: `".."` decrements the level,
`"."` leaves it, anything else increments it. -/
def segStep (item : String) (level : Int) : Int :=
  if item = ".." then level - 1
  else if item = "." then level
  else level + 1

def is_in_rootAux : List String → Int → Bool
  | [], _ => true
  | item :: rest, level =>
      let level' := segStep item level
      if level' < 0 then false else is_in_rootAux rest level'

/-- `is_in_root` from baseio.py: scans the `"/"`-separated segments of the
posix form of the path and rejects as soon as the depth counter drops
below zero. -/
def is_in_root (path : String) : Bool :=
  is_in_rootAux (splitSlash path) 0

/-- Spec-side formulation: the depth counter "ever goes negative" during
the left-to-right scan. -/
def scanGoesNegative : List String → Int → Bool
  | [], _ => false
  | item :: rest, level =>
      let level' := segStep item level
      decide (level' < 0) || scanGoesNegative rest level'

theorem is_in_rootAux_eq_not_scanGoesNegative (segs : List String) (level : Int) :
    is_in_rootAux segs level = !scanGoesNegative segs level := by
  induction segs generalizing level with
  | nil => rfl
  | cons item rest ih =>
      simp only [is_in_rootAux, scanGoesNegative, Bool.not_or]
      by_cases h : segStep item level < 0
      · simp [h]
      · simp [h, ih]

/-! ## Association lists modelling Python `dict`

Keys are unique (`KeysNodup`), as in a Python dictionary.  `assocSet`
overwrites the entry for an existing key in place and otherwise appends,
matching insertion-ordered `dict` assignment; `assocDel` removes the
entry; `assocGet` looks the key up. -/

def assocGet {α β : Type} [DecidableEq α] : List (α × β) → α → Option β
  | [], _ => none
  | (a, b) :: rest, k => if a = k then some b else assocGet rest k

def assocSet {α β : Type} [DecidableEq α] : List (α × β) → α → β → List (α × β)
  | [], k, v => [(k, v)]
  | (a, b) :: rest, k, v =>
      if a = k then (k, v) :: rest else (a, b) :: assocSet rest k v

def assocDel {α β : Type} [DecidableEq α] : List (α × β) → α → List (α × β)
  | [], _ => []
  | (a, b) :: rest, k => if a = k then rest else (a, b) :: assocDel rest k

def KeysNodup {α β : Type} (l : List (α × β)) : Prop :=
  List.Pairwise (fun p q => p.1 ≠ q.1) l

section AssocLemmas

variable {α β : Type} [DecidableEq α]

theorem assocGet_eq_none_of_forall {l : List (α × β)} {k : α}
    (h : ∀ p ∈ l, p.1 ≠ k) : assocGet l k = none := by
  induction l with
  | nil => rfl
  | cons p rest ih =>
      obtain ⟨a, b⟩ := p
      simp only [assocGet]
      rw [if_neg (h (a, b) (List.mem_cons_self _ _))]
      exact ih fun q hq => h q (List.mem_cons_of_mem _ hq)

theorem mem_of_assocGet_eq_some {l : List (α × β)} {k : α} {v : β}
    (h : assocGet l k = some v) : (k, v) ∈ l := by
  induction l with
  | nil => simp [assocGet] at h
  | cons p rest ih =>
      obtain ⟨a, b⟩ := p
      simp only [assocGet] at h
      by_cases hak : a = k
      · rw [if_pos hak] at h
        subst hak
        rw [Option.some.injEq] at h
        subst h
        exact List.mem_cons_self _ _
      · rw [if_neg hak] at h
        exact List.mem_cons_of_mem _ (ih h)

theorem assocGet_eq_some_of_mem {l : List (α × β)} {k : α} {v : β}
    (hnd : KeysNodup l) (h : (k, v) ∈ l) : assocGet l k = some v := by
  induction l with
  | nil => simp at h
  | cons p rest ih =>
      obtain ⟨a, b⟩ := p
      rcases List.mem_cons.mp h with heq | hmem
      · cases heq
        simp [assocGet]
      · have hak : a ≠ k := by
          have := (List.pairwise_cons.mp hnd).1 (k, v) hmem
          simpa using this
        simp only [assocGet, if_neg hak]
        exact ih (List.pairwise_cons.mp hnd).2 hmem

theorem assocGet_assocSet_self (l : List (α × β)) (k : α) (v : β) :
    assocGet (assocSet l k v) k = some v := by
  induction l with
  | nil => simp [assocSet, assocGet]
  | cons p rest ih =>
      obtain ⟨a, b⟩ := p
      by_cases hak : a = k
      · simp [assocSet, hak, assocGet]
      · simp [assocSet, hak, assocGet, ih]

theorem assocGet_assocSet_ne (l : List (α × β)) {k k' : α} (v : β)
    (h : k' ≠ k) : assocGet (assocSet l k v) k' = assocGet l k' := by
  induction l with
  | nil =>
      simp only [assocSet, assocGet]
      rw [if_neg (Ne.symm h)]
  | cons p rest ih =>
      obtain ⟨a, b⟩ := p
      by_cases hak : a = k
      · subst hak
        simp only [assocSet, if_pos rfl, assocGet]
        rw [if_neg (Ne.symm h), if_neg fun hh => h hh.symm]
      · simp only [assocSet, if_neg hak, assocGet]
        by_cases hak' : a = k'
        · rw [if_pos hak', if_pos hak']
        · rw [if_neg hak', if_neg hak', ih]

theorem assocGet_assocDel_ne (l : List (α × β)) {k k' : α}
    (h : k' ≠ k) : assocGet (assocDel l k) k' = assocGet l k' := by
  induction l with
  | nil => rfl
  | cons p rest ih =>
      obtain ⟨a, b⟩ := p
      by_cases hak : a = k
      · subst hak
        have hdel : assocDel ((a, b) :: rest) a = rest := by
          simp [assocDel]
        rw [hdel]
        simp only [assocGet]
        rw [if_neg fun hh => h hh.symm]
      · simp only [assocDel, if_neg hak, assocGet]
        by_cases hak' : a = k'
        · rw [if_pos hak', if_pos hak']
        · rw [if_neg hak', if_neg hak', ih]

theorem mem_assocDel_weak {l : List (α × β)} {k : α} {p : α × β}
    (h : p ∈ assocDel l k) : p ∈ l := by
  induction l with
  | nil => simp [assocDel] at h
  | cons q rest ih =>
      obtain ⟨a, b⟩ := q
      simp only [assocDel] at h
      by_cases hak : a = k
      · rw [if_pos hak] at h
        exact List.mem_cons_of_mem _ h
      · rw [if_neg hak] at h
        rcases List.mem_cons.mp h with heq | hmem
        · subst heq; exact List.mem_cons_self _ _
        · exact List.mem_cons_of_mem _ (ih hmem)

theorem mem_assocDel {l : List (α × β)} {k : α} {p : α × β}
    (hnd : KeysNodup l) (h : p ∈ assocDel l k) : p ∈ l ∧ p.1 ≠ k := by
  induction l with
  | nil => simp [assocDel] at h
  | cons q rest ih =>
      obtain ⟨a, b⟩ := q
      simp only [assocDel] at h
      by_cases hak : a = k
      · rw [if_pos hak] at h
        subst hak
        refine ⟨List.mem_cons_of_mem _ h, ?_⟩
        have := (List.pairwise_cons.mp hnd).1 p h
        simpa using this.symm
      · rw [if_neg hak] at h
        rcases List.mem_cons.mp h with heq | hmem
        · subst heq
          exact ⟨List.mem_cons_self _ _, hak⟩
        · obtain ⟨h1, h2⟩ := ih (List.pairwise_cons.mp hnd).2 hmem
          exact ⟨List.mem_cons_of_mem _ h1, h2⟩

theorem assocGet_assocDel_self {l : List (α × β)} (k : α)
    (hnd : KeysNodup l) : assocGet (assocDel l k) k = none := by
  apply assocGet_eq_none_of_forall
  intro p hp
  exact (mem_assocDel hnd hp).2

theorem mem_assocSet_weak {l : List (α × β)} {k : α} {v : β} {p : α × β}
    (h : p ∈ assocSet l k v) : p = (k, v) ∨ p ∈ l := by
  induction l with
  | nil =>
      simp only [assocSet, List.mem_singleton] at h
      left; exact h
  | cons q rest ih =>
      obtain ⟨a, b⟩ := q
      simp only [assocSet] at h
      by_cases hak : a = k
      · rw [if_pos hak] at h
        subst hak
        rcases List.mem_cons.mp h with heq | hmem
        · left; exact heq
        · right; exact List.mem_cons_of_mem _ hmem
      · rw [if_neg hak] at h
        rcases List.mem_cons.mp h with heq | hmem
        · right; subst heq; exact List.mem_cons_self _ _
        · rcases ih hmem with h1 | h1
          · left; exact h1
          · right; exact List.mem_cons_of_mem _ h1

theorem mem_assocSet {l : List (α × β)} {k : α} {v : β} {p : α × β}
    (hnd : KeysNodup l) (h : p ∈ assocSet l k v) :
    p = (k, v) ∨ (p ∈ l ∧ p.1 ≠ k) := by
  induction l with
  | nil =>
      simp only [assocSet, List.mem_singleton] at h
      left; exact h
  | cons q rest ih =>
      obtain ⟨a, b⟩ := q
      obtain ⟨hhead, htail⟩ := List.pairwise_cons.mp hnd
      simp only [assocSet] at h
      by_cases hak : a = k
      · rw [if_pos hak] at h
        subst hak
        rcases List.mem_cons.mp h with heq | hmem
        · left; exact heq
        · right
          exact ⟨List.mem_cons_of_mem _ hmem, (hhead p hmem).symm⟩
      · rw [if_neg hak] at h
        rcases List.mem_cons.mp h with heq | hmem
        · right
          subst heq
          exact ⟨List.mem_cons_self _ _, hak⟩
        · rcases ih htail hmem with h1 | ⟨h1, h2⟩
          · left; exact h1
          · right; exact ⟨List.mem_cons_of_mem _ h1, h2⟩

theorem keysNodup_assocSet {l : List (α × β)} (k : α) (v : β)
    (hnd : KeysNodup l) : KeysNodup (assocSet l k v) := by
  induction l with
  | nil => simp [assocSet, KeysNodup]
  | cons q rest ih =>
      obtain ⟨a, b⟩ := q
      obtain ⟨hhead, htail⟩ := List.pairwise_cons.mp hnd
      by_cases hak : a = k
      · subst hak
        simp only [assocSet, if_pos rfl]
        exact List.pairwise_cons.mpr ⟨fun p hp => hhead p hp, htail⟩
      · simp only [assocSet, if_neg hak]
        refine List.pairwise_cons.mpr ⟨?_, ih htail⟩
        intro p hp
        rcases mem_assocSet_weak hp with heq | h1
        · subst heq; exact hak
        · exact hhead p h1

theorem keysNodup_assocDel {l : List (α × β)} (k : α)
    (hnd : KeysNodup l) : KeysNodup (assocDel l k) := by
  induction l with
  | nil => exact hnd
  | cons q rest ih =>
      obtain ⟨a, b⟩ := q
      obtain ⟨hhead, htail⟩ := List.pairwise_cons.mp hnd
      by_cases hak : a = k
      · simpa [assocDel, hak] using htail
      · simp only [assocDel, if_neg hak]
        refine List.pairwise_cons.mpr ⟨?_, ih htail⟩
        intro p hp
        exact hhead p (mem_assocDel htail hp).1

theorem assocGet_eq_none_iff {l : List (α × β)} {k : α} :
    assocGet l k = none ↔ ∀ p ∈ l, p.1 ≠ k := by
  constructor
  · intro h p hp hpk
    induction l with
    | nil => simp at hp
    | cons q rest ih =>
        obtain ⟨a, b⟩ := q
        simp only [assocGet] at h
        by_cases hak : a = k
        · rw [if_pos hak] at h; exact Option.noConfusion h
        · rw [if_neg hak] at h
          rcases List.mem_cons.mp hp with heq | hmem
          · subst heq; exact hak hpk
          · exact ih h hmem
  · exact assocGet_eq_none_of_forall

end AssocLemmas

/-! ## `BiDict` (baseio.py lines 106-134)

Keys are `IOKey = (group-or-none, path)` and values are identities of
`BaseSharedIO` objects.  `inverse` maps an object identity back to its
key. -/

abbrev IOId := Nat
abbrev SpecId := Nat
abbrev Group := Nat

structure IOKey where
  group : Option Group
  path : MPath
deriving DecidableEq, Repr

structure BiDict where
  forward : List (IOKey × IOId)
  inverse : List (IOId × IOKey)
deriving DecidableEq, Repr

def BiDict.empty : BiDict := ⟨[], []⟩

/-- `BiDict.__setitem__`: returns the dictionary after the call together
with `some message` when the call raises `ValueError` (in which case
nothing has been mutated, since the raise precedes every mutation). -/
def BiDict.setitem (d : BiDict) (key : IOKey) (value : IOId) :
    BiDict × Option String :=
  match assocGet d.forward key with
  | some old =>
      if old = value then (d, none)
      else if (assocGet d.inverse value).isNone then
        (⟨assocSet d.forward key value,
          assocSet (assocDel d.inverse old) value key⟩, none)
      else (d, some "not injective key-value")
  | none =>
      (⟨assocSet d.forward key value, assocSet d.inverse value key⟩, none)

/-- `BiDict.__delitem__`: `del self.inverse[self[key]]` raises `KeyError`
before any mutation when `key` is absent. -/
def BiDict.delitem (d : BiDict) (key : IOKey) : BiDict × Option String :=
  match assocGet d.forward key with
  | none => (d, some "KeyError")
  | some v => (⟨assocDel d.forward key, assocDel d.inverse v⟩, none)

/-! ## `BaseSharedIO` objects and the manager state

A `BaseSharedIO` object carries its `_path` and its `_specs` dictionary,
of which only the key set (spec identities) matters to the manager; a
`BaseIOSpec` object carries its `_io` binding. -/

structure IOObj where
  path : MPath
  specs : List SpecId
deriving DecidableEq, Repr

structure SpecObj where
  io : IOId
deriving DecidableEq, Repr

/-- The `IOManager` (baseio.py lines 137-276) together with the heap of
live `BaseSharedIO` / `BaseIOSpec` objects and the identity allocator. -/
structure IOManager where
  ios : BiDict
  serializing : Option Bool
  heap : List (IOId × IOObj)
  specHeap : List (SpecId × SpecObj)
  nextId : Nat
deriving DecidableEq, Repr

def initManager : IOManager :=
  ⟨BiDict.empty, none, [], [], 0⟩

namespace IOManager

/-- `IOManager._get_io_key` (lines 163-167). -/
def get_io_key (io_group : Option Group) (path : MPath) : IOKey :=
  if path.isAbs then ⟨none, path⟩ else ⟨io_group, path⟩

/-- `IOManager._get_io` (lines 156-157). -/
def get_io (s : IOManager) (io_group : Option Group) (path : MPath) :
    Option IOId :=
  assocGet s.ios.forward (get_io_key io_group path)

def heapGet (s : IOManager) (i : IOId) : Option IOObj :=
  assocGet s.heap i

/-- `IOManager._new_io` (lines 169-175): construct the object (its `path`
is the argument), then register it unless the key is now occupied, in
which case `RuntimeError("must not happen")` is raised. -/
def new_io (s : IOManager) (io_group : Option Group) (path : MPath) :
    IOManager × Option IOId × Option String :=
  let fid := s.nextId
  let s1 : IOManager :=
    { s with heap := assocSet s.heap fid ⟨path, []⟩, nextId := s.nextId + 1 }
  if (s1.get_io io_group path).isNone then
    match s1.ios.setitem (get_io_key io_group path) fid with
    | (d, none) => ({ s1 with ios := d }, some fid, none)
    | (d, some e) => ({ s1 with ios := d }, none, some e)
  else (s1, none, some "must not happen")

/-- `IOManager.get_or_create_io` (lines 192-197). -/
def get_or_create_io (s : IOManager) (io_group : Option Group)
    (path : MPath) : IOManager × Option IOId × Option String :=
  match s.get_io io_group path with
  | some i => (s, some i, none)
  | none => s.new_io io_group path

/-- `IOManager.restore_io` (lines 185-190): the unpickled object `obj`
with identity `ioId` becomes live (recorded in the heap, with the
allocator kept above every live identity, as Python `id` guarantees), and
is registered unless its key is occupied. -/
def restore_io (s : IOManager) (io_group : Option Group) (ioId : IOId)
    (obj : IOObj) : IOManager × Option String :=
  let bound := max (ioId + 1) ((obj.specs.map (· + 1)).foldr max 0)
  let s0 : IOManager :=
    { s with heap := assocSet s.heap ioId obj,
             nextId := max s.nextId bound }
  match s0.get_io io_group obj.path with
  | some _ => (s0, none)
  | none =>
      match s0.ios.setitem (get_io_key io_group obj.path) ioId with
      | (d, e) => ({ s0 with ios := d }, e)

/-- `IOManager._del_io` (lines 177-183): refuse while dependents remain,
otherwise find the object's key in the forward map and delete it (no-op
when the object is not registered). -/
def del_io (s : IOManager) (ioId : IOId) : IOManager × Option String :=
  match s.heapGet ioId with
  | none => (s, some "invalid io identity")
  | some obj =>
      if obj.specs ≠ [] then (s, some "specs must be deleted beforehand")
      else
        match findKeyFor s.ios.forward ioId with
        | none => (s, none)
        | some key =>
            match s.ios.delitem key with
            | (d, e) => ({ s with ios := d }, e)
where
  /-- `next((k for k, v in self.ios.items() if v is io_), None)` -/
  findKeyFor : List (IOKey × IOId) → IOId → Option IOKey
    | [], _ => none
    | (k, v) :: rest, i => if v = i then some k else findKeyFor rest i

/-- `IOManager.add_spec` (lines 221-226); `canAdd` is the outcome of
`io_._can_add_spec(spec)`, which delegates to the abstract
`_can_add_other` predicates of the registered specs. -/
def add_spec (s : IOManager) (ioId : IOId) (sid : SpecId) (canAdd : Bool) :
    IOManager × Option String :=
  match s.heapGet ioId with
  | none => (s, some "invalid io identity")
  | some obj =>
      if sid ∈ obj.specs then (s, none)
      else if canAdd then
        ({ s with heap :=
            assocSet s.heap ioId ⟨obj.path, obj.specs ++ [sid]⟩ }, none)
      else (s, some "cannot add spec")

/-- `IOManager.del_spec` (lines 228-233). -/
def del_spec (s : IOManager) (sid : SpecId) : IOManager × Option String :=
  match assocGet s.specHeap sid with
  | none => (s, some "invalid spec identity")
  | some sp =>
      match s.heapGet sp.io with
      | none => (s, some "invalid io identity")
      | some obj =>
          if sid ∈ obj.specs then
            let s1 : IOManager :=
              { s with heap :=
                  assocSet s.heap sp.io ⟨obj.path, obj.specs.erase sid⟩ }
            if obj.specs.erase sid = [] then s1.del_io sp.io
            else (s1, none)
          else (s, none)

/-- `IOManager.new_spec` (lines 199-219): allocate the spec, bind it to
the got-or-created io, run `_on_load_value` (outcome `loadOk`) and
`add_spec` (outcome `canAdd`); on failure, delete the io's key when the
io has no dependents, and re-raise. -/
def new_spec (s : IOManager) (io_group : Option Group) (path : MPath)
    (loadOk canAdd : Bool) : IOManager × Option SpecId × Option String :=
  let sid := s.nextId
  let s0 : IOManager := { s with nextId := s.nextId + 1 }
  match s0.get_or_create_io io_group path with
  | (s1, some fio, _) =>
      let s2 : IOManager :=
        { s1 with specHeap := assocSet s1.specHeap sid ⟨fio⟩ }
      let loadErr : Option String :=
        if loadOk then none else some "load_value failed"
      match loadErr with
      | none =>
          match s2.add_spec fio sid canAdd with
          | (s3, none) => (s3, some sid, none)
          | (s3, some e) => rollback s3 io_group fio e
      | some e => rollback s2 io_group fio e
  | (s1, none, e) => (s1, none, e)
where
  /-- `except: if not spec.io.specs: del self.ios[...]; raise` -/
  rollback (s : IOManager) (io_group : Option Group) (fio : IOId)
      (e : String) : IOManager × Option SpecId × Option String :=
    match s.heapGet fio with
    | none => (s, none, some e)
    | some obj =>
        if obj.specs = [] then
          match s.ios.delitem (get_io_key io_group obj.path) with
          | (d, none) => ({ s with ios := d }, none, some e)
          | (d, some e') => ({ s with ios := d }, none, some e')
        else (s, none, some e)

/-- `IOManager.update_path` (lines 251-263). -/
def update_path (s : IOManager) (ioId : IOId) (path : MPath) :
    IOManager × Option String :=
  match assocGet s.ios.inverse ioId with
  | none => (s, some "KeyError")
  | some keyOld =>
      if path = keyOld.path then (s, none)
      else
        let key := get_io_key keyOld.group path
        if (assocGet s.ios.forward key).isSome then
          (s, some "cannot change path")
        else
          match s.ios.delitem keyOld with
          | (d1, some e) => ({ s with ios := d1 }, some e)
          | (d1, none) =>
              match s.heapGet ioId with
              | none => ({ s with ios := d1 }, some "invalid io identity")
              | some obj =>
                  let s1 : IOManager :=
                    { s with
                      ios := d1
                      heap := assocSet s.heap ioId ⟨path, obj.specs⟩ }
                  match s1.ios.setitem key ioId with
                  | (d2, e2) => ({ s1 with ios := d2 }, e2)

end IOManager

/-! ## `IOManager.update_spec_value` (baseio.py lines 242-249)

`spec._can_update_value`, `spec.io._on_update_value` and
`spec._on_update_value` are abstract extension points, so the embedding is
parametric in them; `σ` is the joint resource-and-spec state the two
hooks mutate. -/

def update_spec_value {V K σ : Type} (can_update_value : V → K → Bool)
    (io_on_update_value spec_on_update_value : V → K → σ → σ)
    (value : V) (kwargs : K) (st : σ) : σ × Option String :=
  if can_update_value value kwargs then
    (spec_on_update_value value kwargs
      (io_on_update_value value kwargs st), none)
  else
    (st, some "does not allow to replace its value")

/-! ## `BaseIOSpec.__getstate__` / `__setstate__` (baseio.py lines 345-373)

The state dictionary is modelled with one optional field per key the code
reads; `manager` carries the `serializing` flag.  The `_on_serialize` /
`_on_pickle` / `_on_unserialize` / `_on_unpickle` hooks are abstract, so
the embedding records which (if any) was invoked. -/

structure SpecState where
  manager : Option Bool          -- `state["manager"].serializing`
  io_field : Option IOId         -- `"_io"` when present
  data_field : Option IOId       -- legacy `"_data"` when present
  is_hidden : Option Bool        -- `"is_hidden"` when present
deriving DecidableEq, Repr

inductive SerHook where
  | onSerialize
  | onPickle
  | onUnserialize
  | onUnpickle
  | noHook
deriving DecidableEq, Repr

/-- `BaseIOSpec.__getstate__`: builds the state and dispatches on
`self._manager.serializing`; `None` (the unset context) raises
`RuntimeError("must not happen")`. -/
def spec_getstate (serializing : Option Bool) :
    Option SerHook × Option String :=
  match serializing with
  | some true => (some SerHook.onSerialize, none)
  | some false => (some SerHook.onPickle, none)
  | none => (none, some "must not happen")

structure SpecFields where
  io : IOId
  is_hidden : Bool
deriving DecidableEq, Repr

/-- The field-restoring prefix of `BaseIOSpec.__setstate__` (lines
360-366): `_io` falls back to the legacy `_data` key (`KeyError` when
both are missing), `is_hidden` defaults to `False`. -/
def spec_setstate_fields (state : SpecState) :
    Option SpecFields :=
  match (match state.io_field with
         | some i => some i
         | none => state.data_field) with
  | none => none
  | some i => some ⟨i, state.is_hidden.getD false⟩

/-- `BaseIOSpec.__setstate__` (lines 359-373): restore the fields, then
dispatch on `serializing`.  In the unset case the source builds
`RuntimeError("must not happen")` but does not `raise` it, so the call
returns normally with no hook invoked. -/
def spec_setstate (state : SpecState) :
    Option (SpecFields × SerHook) × Option String :=
  match spec_setstate_fields state with
  | none => (none, some "KeyError")
  | some fields =>
      match state.manager with
      | some true => (some (fields, SerHook.onUnserialize), none)
      | some false => (some (fields, SerHook.onUnpickle), none)
      | none => (some (fields, SerHook.noHook), none)

/-! ## Manager operations and reachability invariants -/

inductive MOp where
  | opGetOrCreate (g : Option Group) (p : MPath)
  | opNewSpec (g : Option Group) (p : MPath) (loadOk canAdd : Bool)
  | opAddSpec (ioId : IOId) (sid : SpecId) (canAdd : Bool)
  | opDelSpec (sid : SpecId)
  | opDelIo (ioId : IOId)
  | opUpdatePath (ioId : IOId) (p : MPath)
  | opRestore (g : Option Group) (ioId : IOId) (obj : IOObj)
deriving DecidableEq, Repr

def applyOp (s : IOManager) : MOp → IOManager × Option String
  | MOp.opGetOrCreate g p =>
      match s.get_or_create_io g p with
      | (s', _, e) => (s', e)
  | MOp.opNewSpec g p loadOk canAdd =>
      match s.new_spec g p loadOk canAdd with
      | (s', _, e) => (s', e)
  | MOp.opAddSpec ioId sid canAdd => s.add_spec ioId sid canAdd
  | MOp.opDelSpec sid => s.del_spec sid
  | MOp.opDelIo ioId => s.del_io ioId
  | MOp.opUpdatePath ioId p => s.update_path ioId p
  | MOp.opRestore g ioId obj => s.restore_io g ioId obj

/-- Consistency of the bidirectional dictionary: unique keys on both
sides and mutually inverse lookups. -/
def BiInv (d : BiDict) : Prop :=
  KeysNodup d.forward ∧ KeysNodup d.inverse ∧
  (∀ p ∈ d.forward, assocGet d.inverse p.2 = some p.1) ∧
  (∀ p ∈ d.inverse, assocGet d.forward p.2 = some p.1)

instance (d : BiDict) : Decidable (BiInv d) := by
  unfold BiInv KeysNodup
  infer_instance

/-- Every registered resource appears in the forward map under at most
one key. -/
def UniqueVal (d : BiDict) : Prop :=
  ∀ p ∈ d.forward, ∀ q ∈ d.forward, p.2 = q.2 → p.1 = q.1

instance (d : BiDict) : Decidable (UniqueVal d) := by
  unfold UniqueVal
  infer_instance

/-- Identities in the index, the heaps and the dependent sets are below
the allocator, so a fresh identity collides with nothing live. -/
def IdBound (s : IOManager) : Prop :=
  (∀ p ∈ s.ios.forward, p.2 < s.nextId) ∧
  (∀ p ∈ s.heap, p.1 < s.nextId ∧ ∀ sid ∈ p.2.specs, sid < s.nextId) ∧
  (∀ p ∈ s.specHeap, p.1 < s.nextId)

instance (s : IOManager) : Decidable (IdBound s) := by
  unfold IdBound
  infer_instance

/-- Well-formedness of the manager's index. -/
def IndexWF (s : IOManager) : Prop :=
  BiInv s.ios ∧ IdBound s

instance (s : IOManager) : Decidable (IndexWF s) := by
  unfold IndexWF
  infer_instance

/-- Every registered resource is live and has a non-empty dependent set. -/
def HasDeps (s : IOManager) (i : IOId) : Prop :=
  ∃ obj, s.heapGet i = some obj ∧ obj.specs ≠ []

instance (s : IOManager) (i : IOId) : Decidable (HasDeps s i) :=
  match h : s.heapGet i with
  | some obj =>
      if hs : obj.specs = [] then
        Decidable.isFalse (by
          rintro ⟨o, ho, hne⟩
          rw [h] at ho
          cases ho
          exact hne hs)
      else
        Decidable.isTrue ⟨obj, h, hs⟩
  | none =>
      Decidable.isFalse (by
        rintro ⟨o, ho, _⟩
        rw [h] at ho
        cases ho)

def DepsNonEmpty (s : IOManager) : Prop :=
  ∀ p ∈ s.ios.forward, HasDeps s p.2

instance (s : IOManager) : Decidable (DepsNonEmpty s) :=
  List.decidableBAll _ _

/-! ## `BiDict` invariant lemmas -/

section BiDictLemmas

theorem biInv_fwd_inv {d : BiDict} (h : BiInv d) {k : IOKey} {v : IOId}
    (hget : assocGet d.forward k = some v) :
    assocGet d.inverse v = some k :=
  h.2.2.1 (k, v) (mem_of_assocGet_eq_some hget)

theorem biInv_inv_fwd {d : BiDict} (h : BiInv d) {v : IOId} {k : IOKey}
    (hget : assocGet d.inverse v = some k) :
    assocGet d.forward k = some v :=
  h.2.2.2 (v, k) (mem_of_assocGet_eq_some hget)

theorem biInv_empty : BiInv BiDict.empty := by
  refine ⟨List.Pairwise.nil, List.Pairwise.nil, ?_, ?_⟩ <;> intro p hp <;>
    simp [BiDict.empty] at hp

/-- `BiDict.__setitem__` preserves the bidirectional invariant provided
the inserted value is not registered under another key whenever the key
is new (precisely the situation in which the source fails to check). -/
theorem setitem_biInv {d : BiDict} (key : IOKey) (value : IOId)
    (h : BiInv d)
    (hcond : assocGet d.forward key = none →
      assocGet d.inverse value = none) :
    BiInv (d.setitem key value).1 := by
  obtain ⟨hndf, hndi, hfi, hif⟩ := h
  unfold BiDict.setitem
  cases hget : assocGet d.forward key with
  | some old =>
      by_cases hov : old = value
      · simpa [hov] using ⟨hndf, hndi, hfi, hif⟩
      · cases hinvv : (assocGet d.inverse value).isNone with
        | false => simpa [hov, hinvv] using ⟨hndf, hndi, hfi, hif⟩
        | true =>
            have hvnone : assocGet d.inverse value = none :=
              Option.isNone_iff_eq_none.mp hinvv
            simp only [hov, hinvv, if_neg, if_pos, ite_false, ite_true]
            refine ⟨keysNodup_assocSet _ _ hndf,
              keysNodup_assocSet _ _ (keysNodup_assocDel _ hndi), ?_, ?_⟩
            · intro p hp
              rcases mem_assocSet hndf hp with heq | ⟨hmem, hne⟩
              · subst heq
                exact assocGet_assocSet_self _ _ _
              · have hbase := hfi p hmem
                have hp2v : p.2 ≠ value := by
                  intro hh
                  rw [hh, hvnone] at hbase
                  exact Option.noConfusion hbase
                have hp2o : p.2 ≠ old := by
                  intro hh
                  rw [hh] at hbase
                  have hko := hfi (key, old) (mem_of_assocGet_eq_some hget)
                  rw [hbase] at hko
                  exact hne (Option.some.inj hko)
                rw [assocGet_assocSet_ne _ _ hp2v,
                  assocGet_assocDel_ne _ hp2o]
                exact hbase
            · intro q hq
              rcases mem_assocSet (keysNodup_assocDel _ hndi) hq with
                heq | ⟨hmem, hne⟩
              · subst heq
                exact assocGet_assocSet_self _ _ _
              · obtain ⟨hmem', hneold⟩ := mem_assocDel hndi hmem
                have hbase := hif q hmem'
                have hq2k : q.2 ≠ key := by
                  intro hh
                  rw [hh, hget] at hbase
                  exact hneold (Option.some.inj hbase).symm
                rw [assocGet_assocSet_ne _ _ hq2k]
                exact hbase
  | none =>
      have hvnone := hcond hget
      simp only
      refine ⟨keysNodup_assocSet _ _ hndf, keysNodup_assocSet _ _ hndi,
        ?_, ?_⟩
      · intro p hp
        rcases mem_assocSet hndf hp with heq | ⟨hmem, hne⟩
        · subst heq
          exact assocGet_assocSet_self _ _ _
        · have hbase := hfi p hmem
          have hp2v : p.2 ≠ value := by
            intro hh
            rw [hh, hvnone] at hbase
            exact Option.noConfusion hbase
          rw [assocGet_assocSet_ne _ _ hp2v]
          exact hbase
      · intro q hq
        rcases mem_assocSet hndi hq with heq | ⟨hmem, hne⟩
        · subst heq
          exact assocGet_assocSet_self _ _ _
        · have hbase := hif q hmem
          have hq2k : q.2 ≠ key := by
            intro hh
            rw [hh, hget] at hbase
            exact Option.noConfusion hbase
          rw [assocGet_assocSet_ne _ _ hq2k]
          exact hbase

/-- `BiDict.__delitem__` preserves the bidirectional invariant. -/
theorem delitem_biInv {d : BiDict} (key : IOKey) (h : BiInv d) :
    BiInv (d.delitem key).1 := by
  obtain ⟨hndf, hndi, hfi, hif⟩ := h
  unfold BiDict.delitem
  cases hget : assocGet d.forward key with
  | none => exact ⟨hndf, hndi, hfi, hif⟩
  | some v =>
      refine ⟨keysNodup_assocDel _ hndf, keysNodup_assocDel _ hndi, ?_, ?_⟩
      · intro p hp
        obtain ⟨hmem, hne⟩ := mem_assocDel hndf hp
        have hbase := hfi p hmem
        have hp2v : p.2 ≠ v := by
          intro hh
          rw [hh] at hbase
          have hkv := hfi (key, v) (mem_of_assocGet_eq_some hget)
          rw [hbase] at hkv
          exact hne (Option.some.inj hkv)
        rw [assocGet_assocDel_ne _ hp2v]
        exact hbase
      · intro q hq
        obtain ⟨hmem, hne⟩ := mem_assocDel hndi hq
        have hbase := hif q hmem
        have hq2k : q.2 ≠ key := by
          intro hh
          rw [hh, hget] at hbase
          exact hne (Option.some.inj hbase).symm
        rw [assocGet_assocDel_ne _ hq2k]
        exact hbase

theorem biInv_uniqueVal {d : BiDict} (h : BiInv d) : UniqueVal d := by
  intro p hp q hq hpq
  have h1 := h.2.2.1 p hp
  have h2 := h.2.2.1 q hq
  rw [hpq, h2] at h1
  exact (Option.some.inj h1).symm

theorem setitem_fst_of_err {d : BiDict} {key : IOKey} {value : IOId} {e : String}
    (h : (d.setitem key value).2 = some e) : (d.setitem key value).1 = d := by
  cases hget : assocGet d.forward key with
  | some old =>
      by_cases hov : old = value
      · simp [BiDict.setitem, hget, hov] at h
      · cases hiv : assocGet d.inverse value with
        | none => simp [BiDict.setitem, hget, hov, hiv] at h
        | some k => simp [BiDict.setitem, hget, hov, hiv]
  | none => simp [BiDict.setitem, hget] at h

theorem delitem_fst_of_err {d : BiDict} {key : IOKey} {e : String}
    (h : (d.delitem key).2 = some e) : (d.delitem key).1 = d := by
  cases hget : assocGet d.forward key with
  | some old => simp [BiDict.delitem, hget] at h
  | none => simp [BiDict.delitem, hget]

end BiDictLemmas

/-! ## Manager operation unfoldings -/

namespace IOManager

theorem indexWF_inv_nextId_none {s : IOManager} (h : IndexWF s) :
    assocGet s.ios.inverse s.nextId = none := by
  cases hget : assocGet s.ios.inverse s.nextId with
  | none => rfl
  | some k =>
      have hf := biInv_inv_fwd h.1 hget
      have := h.2.1 (k, s.nextId) (mem_of_assocGet_eq_some hf)
      exact absurd this (lt_irrefl _)

theorem get_or_create_io_of_some {s : IOManager} {g : Option Group}
    {p : MPath} {i : IOId} (h : s.get_io g p = some i) :
    s.get_or_create_io g p = (s, some i, none) := by
  unfold get_or_create_io
  rw [h]

theorem get_or_create_io_of_none {s : IOManager} {g : Option Group}
    {p : MPath} (h : s.get_io g p = none) :
    s.get_or_create_io g p =
      (⟨⟨assocSet s.ios.forward (get_io_key g p) s.nextId,
         assocSet s.ios.inverse s.nextId (get_io_key g p)⟩,
        s.serializing,
        assocSet s.heap s.nextId ⟨p, []⟩,
        s.specHeap,
        s.nextId + 1⟩,
       some s.nextId, none) := by
  have h' : assocGet s.ios.forward (get_io_key g p) = none := h
  simp [get_or_create_io, new_io, get_io, BiDict.setitem, h']

theorem biInv_freshInsert {d : BiDict} {key : IOKey} {v : IOId}
    (h : BiInv d) (hk : assocGet d.forward key = none)
    (hv : assocGet d.inverse v = none) :
    BiInv ⟨assocSet d.forward key v, assocSet d.inverse v key⟩ := by
  have hset := setitem_biInv key v h (fun _ => hv)
  simpa [BiDict.setitem, hk] using hset

theorem get_or_create_io_indexWF (s : IOManager) (g : Option Group)
    (p : MPath) (h : IndexWF s) : IndexWF (s.get_or_create_io g p).1 := by
  cases hget : s.get_io g p with
  | some i => rw [get_or_create_io_of_some hget]; exact h
  | none =>
      rw [get_or_create_io_of_none hget]
      obtain ⟨hbi, hfwd, hheap, hspec⟩ :
          BiInv s.ios ∧ (∀ q ∈ s.ios.forward, q.2 < s.nextId) ∧
          (∀ q ∈ s.heap, q.1 < s.nextId ∧ ∀ sid ∈ q.2.specs, sid < s.nextId) ∧
          (∀ q ∈ s.specHeap, q.1 < s.nextId) :=
        ⟨h.1, h.2.1, h.2.2.1, h.2.2.2⟩
      refine ⟨?_, ?_, ?_, ?_⟩
      · exact biInv_freshInsert hbi hget (indexWF_inv_nextId_none h)
      · intro q hq
        rcases mem_assocSet_weak hq with heq | hmem
        · subst heq
          exact Nat.lt_succ_self _
        · exact Nat.lt_succ_of_lt (hfwd q hmem)
      · intro q hq
        rcases mem_assocSet_weak hq with heq | hmem
        · subst heq
          exact ⟨Nat.lt_succ_self _, by intro sid hsid; simp at hsid⟩
        · obtain ⟨h1, h2⟩ := hheap q hmem
          exact ⟨Nat.lt_succ_of_lt h1,
            fun sid hsid => Nat.lt_succ_of_lt (h2 sid hsid)⟩
      · intro q hq
        exact Nat.lt_succ_of_lt (hspec q hq)

theorem get_or_create_io_nextId_mono (s : IOManager) (g : Option Group)
    (p : MPath) : s.nextId ≤ (s.get_or_create_io g p).1.nextId := by
  cases hget : s.get_io g p with
  | some i => rw [get_or_create_io_of_some hget]
  | none =>
      rw [get_or_create_io_of_none hget]
      exact Nat.le_succ _

theorem delitem_state_indexWF {s : IOManager} (key : IOKey)
    (h : IndexWF s) : IndexWF { s with ios := (s.ios.delitem key).1 } := by
  refine ⟨delitem_biInv _ h.1, ?_, h.2.2.1, h.2.2.2⟩
  intro q hq
  apply h.2.1
  revert hq
  unfold BiDict.delitem
  cases hget : assocGet s.ios.forward key with
  | none => exact id
  | some v => exact mem_assocDel_weak

theorem add_spec_indexWF (s : IOManager) (ioId : IOId) (sid : SpecId)
    (canAdd : Bool) (h : IndexWF s) (hsid : sid < s.nextId) :
    IndexWF (s.add_spec ioId sid canAdd).1 := by
  unfold add_spec
  cases hget : s.heapGet ioId with
  | none => exact h
  | some obj =>
      by_cases hmem : sid ∈ obj.specs
      · simp only [hmem, if_pos]
        exact h
      · cases canAdd with
        | false => simp only [hmem, ite_false, Bool.false_eq_true]; exact h
        | true =>
            simp only [hmem, ite_false, ite_true]
            refine ⟨h.1, h.2.1, ?_, h.2.2.2⟩
            intro q hq
            rcases mem_assocSet_weak hq with heq | hmemq
            · subst heq
              have hob := h.2.2.1 (ioId, obj) (mem_of_assocGet_eq_some hget)
              refine ⟨hob.1, ?_⟩
              intro sd hsd
              rcases List.mem_append.mp hsd with h1 | h1
              · exact hob.2 sd h1
              · rw [List.mem_singleton.mp h1]
                exact hsid
            · exact h.2.2.1 q hmemq

theorem del_io_indexWF (s : IOManager) (ioId : IOId) (h : IndexWF s) :
    IndexWF (s.del_io ioId).1 := by
  unfold del_io
  cases hget : s.heapGet ioId with
  | none => exact h
  | some obj =>
      by_cases hne : obj.specs = []
      · simp only [hne, ne_eq, not_true_eq_false, ite_false]
        cases hfind : del_io.findKeyFor s.ios.forward ioId with
        | none => exact h
        | some key =>
            dsimp only
            exact delitem_state_indexWF key h
      · simp only [hne, ne_eq, not_false_eq_true, ite_true]
        exact h

theorem del_spec_indexWF (s : IOManager) (sid : SpecId) (h : IndexWF s) :
    IndexWF (s.del_spec sid).1 := by
  unfold del_spec
  cases hsp : assocGet s.specHeap sid with
  | none => exact h
  | some sp =>
      dsimp only
      cases hget : s.heapGet sp.io with
      | none => exact h
      | some obj =>
          dsimp only
          have hob := h.2.2.1 (sp.io, obj) (mem_of_assocGet_eq_some hget)
          have hwf1 : IndexWF
              { s with heap :=
                  (assocSet s.heap sp.io ⟨obj.path, obj.specs.erase sid⟩) } := by
            refine ⟨h.1, h.2.1, ?_, h.2.2.2⟩
            intro q hq
            rcases mem_assocSet_weak hq with heq | hmemq
            · subst heq
              refine ⟨hob.1, ?_⟩
              intro sd hsd
              exact hob.2 sd (List.mem_of_mem_erase hsd)
            · exact h.2.2.1 q hmemq
          by_cases hmem : sid ∈ obj.specs
          · rw [if_pos hmem]
            by_cases herase : obj.specs.erase sid = []
            · rw [if_pos herase]
              exact del_io_indexWF _ _ hwf1
            · rw [if_neg herase]
              exact hwf1
          · rw [if_neg hmem]
            exact h

theorem mem_le_foldr_max {a : Nat} {l : List Nat} (h : a ∈ l) :
    a ≤ l.foldr max 0 := by
  induction l with
  | nil => simp at h
  | cons b rest ih =>
      rcases List.mem_cons.mp h with heq | hmem
      · subst heq
        exact le_max_left _ _
      · exact le_trans (ih hmem) (le_max_right _ _)

theorem mem_setitem_fst_weak {d : BiDict} {key : IOKey} {v : IOId}
    {q : IOKey × IOId} (h : q ∈ (d.setitem key v).1.forward) :
    q = (key, v) ∨ q ∈ d.forward := by
  revert h
  unfold BiDict.setitem
  cases hget : assocGet d.forward key with
  | some old =>
      dsimp only
      by_cases hov : old = v
      · rw [if_pos hov]
        exact Or.inr
      · rw [if_neg hov]
        cases hiv : (assocGet d.inverse v).isNone with
        | true =>
            intro h
            rw [if_pos rfl] at h
            exact mem_assocSet_weak h
        | false =>
            intro h
            rw [if_neg Bool.false_ne_true] at h
            exact Or.inr h
  | none =>
      dsimp only
      intro h
      exact mem_assocSet_weak h

theorem delitem_of_some {d : BiDict} {key : IOKey} {v : IOId}
    (h : assocGet d.forward key = some v) :
    d.delitem key = (⟨assocDel d.forward key, assocDel d.inverse v⟩, none) := by
  simp [BiDict.delitem, h]

theorem indexWF_bump {s : IOManager} (h : IndexWF s) :
    IndexWF { s with nextId := s.nextId + 1 } := by
  refine ⟨h.1, ?_, ?_, ?_⟩
  · intro q hq
    exact Nat.lt_succ_of_lt (h.2.1 q hq)
  · intro q hq
    obtain ⟨h1, h2⟩ := h.2.2.1 q hq
    exact ⟨Nat.lt_succ_of_lt h1, fun sd hsd => Nat.lt_succ_of_lt (h2 sd hsd)⟩
  · intro q hq
    exact Nat.lt_succ_of_lt (h.2.2.2 q hq)

theorem update_path_indexWF (s : IOManager) (ioId : IOId) (p : MPath)
    (h : IndexWF s) : IndexWF (s.update_path ioId p).1 := by
  unfold update_path
  cases hinv : assocGet s.ios.inverse ioId with
  | none => exact h
  | some keyOld =>
      dsimp only
      by_cases hpe : p = keyOld.path
      · rw [if_pos hpe]; exact h
      · rw [if_neg hpe]
        by_cases hocc : (assocGet s.ios.forward (get_io_key keyOld.group p)).isSome
        · rw [if_pos hocc]; exact h
        · rw [if_neg hocc]
          have hfwdOld : assocGet s.ios.forward keyOld = some ioId :=
            biInv_inv_fwd h.1 hinv
          rw [delitem_of_some hfwdOld]
          dsimp only
          cases hheap : s.heapGet ioId with
          | none =>
              dsimp only
              have := delitem_state_indexWF keyOld h
              rw [delitem_of_some hfwdOld] at this
              exact this
          | some obj =>
              dsimp only
              have hob := h.2.2.1 (ioId, obj) (mem_of_assocGet_eq_some hheap)
              have hd1 : BiInv
                  (⟨assocDel s.ios.forward keyOld,
                    assocDel s.ios.inverse ioId⟩ : BiDict) := by
                have := delitem_biInv keyOld h.1
                rw [delitem_of_some hfwdOld] at this
                exact this
              have hinv1 : assocGet
                  (⟨assocDel s.ios.forward keyOld,
                    assocDel s.ios.inverse ioId⟩ : BiDict).inverse ioId = none :=
                assocGet_assocDel_self _ h.1.2.1
              refine ⟨?_, ?_, ?_, h.2.2.2⟩
              · exact setitem_biInv _ _ hd1 (fun _ => hinv1)
              · intro q hq
                rcases mem_setitem_fst_weak hq with heq | hmem
                · subst heq
                  exact h.2.1 (keyOld, ioId) (mem_of_assocGet_eq_some hfwdOld)
                · exact h.2.1 q (mem_assocDel_weak hmem)
              · intro q hq
                rcases mem_assocSet_weak hq with heq | hmem
                · subst heq
                  exact ⟨hob.1, hob.2⟩
                · exact h.2.2.1 q hmem

theorem restore_io_indexWF (s : IOManager) (g : Option Group)
    (ioId : IOId) (obj : IOObj) (h : IndexWF s)
    (hfresh : assocGet s.ios.inverse ioId = none) :
    IndexWF (s.restore_io g ioId obj).1 := by
  unfold restore_io
  dsimp only
  have hb1 : ioId < max (ioId + 1) ((obj.specs.map (· + 1)).foldr max 0) :=
    lt_of_lt_of_le (Nat.lt_succ_self _) (le_max_left _ _)
  have hb2 : ∀ sd ∈ obj.specs,
      sd < max (ioId + 1) ((obj.specs.map (· + 1)).foldr max 0) := by
    intro sd hsd
    have : sd + 1 ≤ (obj.specs.map (· + 1)).foldr max 0 :=
      mem_le_foldr_max (List.mem_map_of_mem _ hsd)
    exact lt_of_lt_of_le (Nat.lt_of_lt_of_le (Nat.lt_succ_self _) this)
      (le_max_right _ _)
  have hwf0 : IndexWF
      { s with heap := assocSet s.heap ioId obj,
               nextId := max s.nextId
                 (max (ioId + 1) ((obj.specs.map (· + 1)).foldr max 0)) } := by
    refine ⟨h.1, ?_, ?_, ?_⟩
    · intro q hq
      exact lt_of_lt_of_le (h.2.1 q hq) (le_max_left _ _)
    · intro q hq
      rcases mem_assocSet_weak hq with heq | hmem
      · subst heq
        exact ⟨lt_of_lt_of_le hb1 (le_max_right _ _),
          fun sd hsd => lt_of_lt_of_le (hb2 sd hsd) (le_max_right _ _)⟩
      · obtain ⟨h1, h2⟩ := h.2.2.1 q hmem
        exact ⟨lt_of_lt_of_le h1 (le_max_left _ _),
          fun sd hsd => lt_of_lt_of_le (h2 sd hsd) (le_max_left _ _)⟩
    · intro q hq
      exact lt_of_lt_of_le (h.2.2.2 q hq) (le_max_left _ _)
  cases hget : get_io
      { s with heap := assocSet s.heap ioId obj,
               nextId := max s.nextId
                 (max (ioId + 1) ((obj.specs.map (· + 1)).foldr max 0)) }
      g obj.path with
  | some i =>
      exact hwf0
  | none =>
      dsimp only
      refine ⟨?_, ?_, hwf0.2.2.1, hwf0.2.2.2⟩
      · exact setitem_biInv _ _ hwf0.1 (fun _ => hfresh)
      · intro q hq
        rcases mem_setitem_fst_weak hq with heq | hmem
        · subst heq
          exact lt_of_lt_of_le hb1 (le_max_right _ _)
        · exact hwf0.2.1 q hmem

theorem rollback_indexWF (s : IOManager) (g : Option Group) (fio : IOId)
    (e : String) (h : IndexWF s) :
    IndexWF (new_spec.rollback s g fio e).1 := by
  unfold new_spec.rollback
  cases hget : s.heapGet fio with
  | none => exact h
  | some obj =>
      dsimp only
      by_cases hsp : obj.specs = []
      · rw [if_pos hsp]
        rcases hdel : s.ios.delitem (get_io_key g obj.path) with ⟨d, e'⟩
        have hst := delitem_state_indexWF (get_io_key g obj.path) h
        rw [hdel] at hst
        cases e' with
        | none => exact hst
        | some e'' => exact hst
      · rw [if_neg hsp]
        exact h

theorem new_spec_indexWF (s : IOManager) (g : Option Group) (p : MPath)
    (loadOk canAdd : Bool) (h : IndexWF s) :
    IndexWF (s.new_spec g p loadOk canAdd).1 := by
  unfold new_spec
  dsimp only
  have hwf0 : IndexWF { s with nextId := s.nextId + 1 } := indexWF_bump h
  rcases hgoc : ({ s with nextId := s.nextId + 1 } : IOManager).get_or_create_io
      g p with ⟨s1, oi, e⟩
  have hwf1 : IndexWF s1 := by
    have := get_or_create_io_indexWF { s with nextId := s.nextId + 1 } g p hwf0
    rw [hgoc] at this
    exact this
  have hnext1 : s.nextId + 1 ≤ s1.nextId := by
    have := get_or_create_io_nextId_mono
      { s with nextId := s.nextId + 1 } g p
    rw [hgoc] at this
    exact this
  cases oi with
  | none =>
      dsimp only
      exact hwf1
  | some fio =>
      dsimp only
      have hwf2 : IndexWF
          { s1 with specHeap := assocSet s1.specHeap s.nextId ⟨fio⟩ } := by
        refine ⟨hwf1.1, hwf1.2.1, hwf1.2.2.1, ?_⟩
        intro q hq
        rcases mem_assocSet_weak hq with heq | hmem
        · subst heq
          exact lt_of_lt_of_le (Nat.lt_succ_self _) hnext1
        · exact hwf1.2.2.2 q hmem
      cases loadOk with
      | false =>
          rw [if_neg Bool.false_ne_true]
          dsimp only
          exact rollback_indexWF _ _ _ _ hwf2
      | true =>
          rw [if_pos rfl]
          dsimp only
          cases hadd : ({ s1 with
              specHeap := assocSet s1.specHeap s.nextId ⟨fio⟩ } :
                IOManager).add_spec fio s.nextId canAdd with
          | mk s3 e3 =>
              have hwf3 : IndexWF s3 := by
                have := add_spec_indexWF
                  { s1 with specHeap := assocSet s1.specHeap s.nextId ⟨fio⟩ }
                  fio s.nextId canAdd hwf2
                  (lt_of_lt_of_le (Nat.lt_succ_self _) hnext1)
                rw [hadd] at this
                exact this
              cases e3 with
              | none => exact hwf3
              | some e4 => exact rollback_indexWF _ _ _ _ hwf3

theorem findKeyFor_get {l : List (IOKey × IOId)} {i : IOId} {k : IOKey}
    (hnd : KeysNodup l) (h : del_io.findKeyFor l i = some k) :
    assocGet l k = some i := by
  induction l with
  | nil => simp [del_io.findKeyFor] at h
  | cons q rest ih =>
      obtain ⟨a, b⟩ := q
      obtain ⟨hhead, htail⟩ := List.pairwise_cons.mp hnd
      simp only [del_io.findKeyFor] at h
      by_cases hbi : b = i
      · rw [if_pos hbi] at h
        cases h
        simp [assocGet, hbi]
      · rw [if_neg hbi] at h
        have hres := ih htail h
        have hak : a ≠ k := by
          intro hh
          subst hh
          have := assocGet_eq_some_of_mem htail
            (mem_of_assocGet_eq_some hres)
          exact hhead _ (mem_of_assocGet_eq_some hres) rfl
        simp only [assocGet, if_neg hak]
        exact hres

theorem findKeyFor_none {l : List (IOKey × IOId)} {i : IOId}
    (h : del_io.findKeyFor l i = none) : ∀ p ∈ l, p.2 ≠ i := by
  induction l with
  | nil => intro p hp; simp at hp
  | cons q rest ih =>
      obtain ⟨a, b⟩ := q
      simp only [del_io.findKeyFor] at h
      by_cases hbi : b = i
      · rw [if_pos hbi] at h
        exact Option.noConfusion h
      · rw [if_neg hbi] at h
        intro p hp
        rcases List.mem_cons.mp hp with heq | hmem
        · subst heq; exact hbi
        · exact ih h p hmem

theorem add_spec_fst_of_err {s : IOManager} {ioId : IOId} {sid : SpecId}
    {canAdd : Bool} {e : String}
    (h : (s.add_spec ioId sid canAdd).2 = some e) :
    (s.add_spec ioId sid canAdd).1 = s := by
  unfold add_spec at h ⊢
  cases hget : s.heapGet ioId with
  | none => rfl
  | some obj =>
      rw [hget] at h
      dsimp only at h ⊢
      by_cases hmem : sid ∈ obj.specs
      · rw [if_pos hmem]
      · rw [if_neg hmem] at h ⊢
        cases canAdd with
        | true => rw [if_pos rfl] at h; exact Option.noConfusion h
        | false => rw [if_neg Bool.false_ne_true]

theorem hasDeps_ios_irrel {s : IOManager} {d : BiDict} {i : IOId}
    (h : HasDeps s i) : HasDeps { s with ios := d } i := h

theorem add_spec_deps (s : IOManager) (ioId : IOId) (sid : SpecId)
    (canAdd : Bool) (hd : DepsNonEmpty s) :
    DepsNonEmpty (s.add_spec ioId sid canAdd).1 := by
  unfold add_spec
  cases hget : s.heapGet ioId with
  | none => exact hd
  | some obj =>
      dsimp only
      by_cases hmem : sid ∈ obj.specs
      · rw [if_pos hmem]; exact hd
      · rw [if_neg hmem]
        cases canAdd with
        | false => rw [if_neg Bool.false_ne_true]; exact hd
        | true =>
            rw [if_pos rfl]
            intro q hq
            by_cases hqio : q.2 = ioId
            · refine ⟨⟨obj.path, obj.specs ++ [sid]⟩, ?_, by simp⟩
              show assocGet (assocSet s.heap ioId _) q.2 = _
              rw [hqio]
              exact assocGet_assocSet_self _ _ _
            · obtain ⟨o, ho, hne⟩ := hd q hq
              refine ⟨o, ?_, hne⟩
              show assocGet (assocSet s.heap ioId _) q.2 = some o
              rw [assocGet_assocSet_ne _ _ hqio]
              exact ho

theorem del_io_deps (s : IOManager) (ioId : IOId) (hd : DepsNonEmpty s) :
    DepsNonEmpty (s.del_io ioId).1 := by
  unfold del_io
  cases hget : s.heapGet ioId with
  | none => exact hd
  | some obj =>
      dsimp only
      by_cases hne : obj.specs = []
      · simp only [hne, ne_eq, not_true_eq_false, ite_false]
        cases hfind : del_io.findKeyFor s.ios.forward ioId with
        | none => exact hd
        | some key =>
            dsimp only
            intro q hq
            revert hq
            unfold BiDict.delitem
            cases hgk : assocGet s.ios.forward key with
            | none =>
                intro hq
                exact hd q hq
            | some v =>
                intro hq
                exact hd q (mem_assocDel_weak hq)
      · simp only [hne, ne_eq, not_false_eq_true, ite_true]
        exact hd

theorem del_spec_deps (s : IOManager) (sid : SpecId) (h : IndexWF s)
    (hd : DepsNonEmpty s) : DepsNonEmpty (s.del_spec sid).1 := by
  unfold del_spec
  cases hsp : assocGet s.specHeap sid with
  | none => exact hd
  | some sp =>
      dsimp only
      cases hget : s.heapGet sp.io with
      | none => exact hd
      | some obj =>
          dsimp only
          by_cases hmem : sid ∈ obj.specs
          · rw [if_pos hmem]
            by_cases herase : obj.specs.erase sid = []
            · rw [if_pos herase]
              -- the dependent set becomes empty, so `_del_io` runs on the
              -- state with the object's specs erased
              unfold del_io
              have hget1 : assocGet
                  (assocSet s.heap sp.io ⟨obj.path, obj.specs.erase sid⟩)
                  sp.io = some ⟨obj.path, obj.specs.erase sid⟩ :=
                assocGet_assocSet_self _ _ _
              show DepsNonEmpty _
              rw [show ({ s with heap := (assocSet s.heap sp.io (IOObj.mk obj.path (obj.specs.erase sid))) } : IOManager).heapGet sp.io = some (IOObj.mk obj.path (obj.specs.erase sid)) from hget1]
              dsimp only
              rw [if_neg (by simp [herase])]
              cases hfind : del_io.findKeyFor s.ios.forward sp.io with
              | none =>
                  intro q hq
                  have hqne := findKeyFor_none hfind q hq
                  obtain ⟨o, ho, hone⟩ := hd q hq
                  refine ⟨o, ?_, hone⟩
                  show assocGet (assocSet s.heap sp.io _) q.2 = some o
                  rw [assocGet_assocSet_ne _ _ hqne]
                  exact ho
              | some key =>
                  dsimp only
                  have hgk : assocGet s.ios.forward key = some sp.io :=
                    findKeyFor_get h.1.1 hfind
                  rw [show (({ s with heap := (assocSet s.heap sp.io (IOObj.mk obj.path (obj.specs.erase sid))) } : IOManager).ios.delitem key) = (BiDict.mk (assocDel s.ios.forward key) (assocDel s.ios.inverse sp.io), none) from delitem_of_some hgk]
                  intro q hq
                  obtain ⟨hqmem, hqkey⟩ := mem_assocDel h.1.1 hq
                  have hqio : q.2 ≠ sp.io := by
                    intro hh
                    have h1 := h.1.2.2.1 q hqmem
                    have h2 := h.1.2.2.1 (key, sp.io)
                      (mem_of_assocGet_eq_some hgk)
                    rw [hh] at h1
                    rw [h2] at h1
                    exact hqkey (Option.some.inj h1).symm
                  obtain ⟨o, ho, hone⟩ := hd q hqmem
                  refine ⟨o, ?_, hone⟩
                  show assocGet (assocSet s.heap sp.io _) q.2 = some o
                  rw [assocGet_assocSet_ne _ _ hqio]
                  exact ho
            · rw [if_neg herase]
              intro q hq
              by_cases hqio : q.2 = sp.io
              · refine ⟨⟨obj.path, obj.specs.erase sid⟩, ?_, herase⟩
                show assocGet (assocSet s.heap sp.io _) q.2 = _
                rw [hqio]
                exact assocGet_assocSet_self _ _ _
              · obtain ⟨o, ho, hone⟩ := hd q hq
                refine ⟨o, ?_, hone⟩
                show assocGet (assocSet s.heap sp.io _) q.2 = some o
                rw [assocGet_assocSet_ne _ _ hqio]
                exact ho
          · rw [if_neg hmem]
            exact hd

theorem update_path_deps (s : IOManager) (ioId : IOId) (p : MPath)
    (h : IndexWF s) (hd : DepsNonEmpty s) :
    DepsNonEmpty (s.update_path ioId p).1 := by
  unfold update_path
  cases hinv : assocGet s.ios.inverse ioId with
  | none => exact hd
  | some keyOld =>
      dsimp only
      by_cases hpe : p = keyOld.path
      · rw [if_pos hpe]; exact hd
      · rw [if_neg hpe]
        by_cases hocc : (assocGet s.ios.forward (get_io_key keyOld.group p)).isSome
        · rw [if_pos hocc]; exact hd
        · rw [if_neg hocc]
          have hfwdOld : assocGet s.ios.forward keyOld = some ioId :=
            biInv_inv_fwd h.1 hinv
          rw [delitem_of_some hfwdOld]
          dsimp only
          cases hheap : s.heapGet ioId with
          | none =>
              dsimp only
              intro q hq
              exact hd q (mem_assocDel_weak hq)
          | some obj =>
              dsimp only
              intro q hq
              rcases mem_setitem_fst_weak hq with heq | hmem
              · subst heq
                obtain ⟨o, ho, hone⟩ := hd (keyOld, ioId)
                  (mem_of_assocGet_eq_some hfwdOld)
                rw [hheap] at ho
                cases ho
                refine ⟨⟨p, obj.specs⟩, ?_, hone⟩
                show assocGet (assocSet s.heap ioId _) _ = _
                exact assocGet_assocSet_self _ _ _
              · obtain ⟨hqmem, hqold⟩ := mem_assocDel h.1.1 hmem
                have hqio : q.2 ≠ ioId := by
                  intro hh
                  have h1 := h.1.2.2.1 q hqmem
                  rw [hh, hinv] at h1
                  exact hqold (Option.some.inj h1).symm
                obtain ⟨o, ho, hone⟩ := hd q hqmem
                refine ⟨o, ?_, hone⟩
                show assocGet (assocSet s.heap ioId _) q.2 = some o
                rw [assocGet_assocSet_ne _ _ hqio]
                exact ho

theorem restore_io_deps (s : IOManager) (g : Option Group) (ioId : IOId)
    (obj : IOObj) (h : IndexWF s) (hd : DepsNonEmpty s)
    (hfresh : assocGet s.ios.inverse ioId = none)
    (hobj : obj.specs ≠ []) : DepsNonEmpty (s.restore_io g ioId obj).1 := by
  unfold restore_io
  dsimp only
  have htrans : ∀ q ∈ s.ios.forward,
      assocGet (assocSet s.heap ioId obj) q.2 = assocGet s.heap q.2 := by
    intro q hq
    have hqio : q.2 ≠ ioId := by
      intro hh
      have h1 := h.1.2.2.1 q hq
      rw [hh, hfresh] at h1
      exact Option.noConfusion h1
    exact assocGet_assocSet_ne _ _ hqio
  cases hget : get_io
      { s with heap := assocSet s.heap ioId obj,
               nextId := max s.nextId
                 (max (ioId + 1) ((obj.specs.map (· + 1)).foldr max 0)) }
      g obj.path with
  | some i =>
      intro q hq
      obtain ⟨o, ho, hone⟩ := hd q hq
      refine ⟨o, ?_, hone⟩
      show assocGet (assocSet s.heap ioId obj) q.2 = some o
      rw [htrans q hq]
      exact ho
  | none =>
      dsimp only
      intro q hq
      rcases mem_setitem_fst_weak hq with heq | hmem
      · subst heq
        refine ⟨obj, ?_, hobj⟩
        show assocGet (assocSet s.heap ioId obj) _ = some obj
        exact assocGet_assocSet_self _ _ _
      · obtain ⟨o, ho, hone⟩ := hd q hmem
        refine ⟨o, ?_, hone⟩
        show assocGet (assocSet s.heap ioId obj) q.2 = some o
        rw [htrans q hmem]
        exact ho

/-- After `new_spec`'s rollback, every registered resource other than the
rolled-back one keeps its dependents, and the rolled-back one is either
still carrying dependents or gets its key deleted. -/
theorem rollback_deps (t : IOManager) (g : Option Group) (fio : IOId)
    (e : String) (hbi : BiInv t.ios)
    (hdeps : ∀ q ∈ t.ios.forward, q.2 ≠ fio → HasDeps t q.2)
    (hfio : ∀ q ∈ t.ios.forward, q.2 = fio →
      HasDeps t fio ∨
      (∃ obj, t.heapGet fio = some obj ∧ obj.specs = [] ∧
        q.1 = get_io_key g obj.path)) :
    DepsNonEmpty (new_spec.rollback t g fio e).1 := by
  unfold new_spec.rollback
  cases hget : t.heapGet fio with
  | none =>
      intro q hq
      by_cases hqf : q.2 = fio
      · rcases hfio q hq hqf with hh | ⟨o, ho, _⟩
        · rw [hqf]; exact hh
        · rw [hget] at ho; exact Option.noConfusion ho
      · exact hdeps q hq hqf
  | some obj =>
      dsimp only
      by_cases hsp : obj.specs = []
      · rw [if_pos hsp]
        cases hgk : assocGet t.ios.forward (get_io_key g obj.path) with
        | none =>
            rw [show t.ios.delitem (get_io_key g obj.path) =
              (t.ios, some "KeyError") by simp [BiDict.delitem, hgk]]
            intro q hq
            by_cases hqf : q.2 = fio
            · rcases hfio q hq hqf with hh | ⟨o, ho, _, hq1⟩
              · rw [hqf]; exact hh
              · rw [hget] at ho
                cases ho
                exfalso
                have := assocGet_eq_some_of_mem hbi.1 (hq1 ▸ hq : (get_io_key g obj.path, q.2) ∈ t.ios.forward)
                rw [hgk] at this
                exact Option.noConfusion this
            · exact hdeps q hq hqf
        | some v =>
            rw [delitem_of_some hgk]
            intro q hq
            obtain ⟨hqmem, hqkey⟩ := mem_assocDel hbi.1 hq
            by_cases hqf : q.2 = fio
            · exfalso
              rcases hfio q hqmem hqf with hh | ⟨o, ho, hosp, hq1⟩
              · obtain ⟨o, ho, hone⟩ := hh
                rw [hget] at ho
                cases ho
                exact hone hsp
              · rw [hget] at ho
                cases ho
                exact hqkey hq1
            · exact hdeps q hqmem hqf
      · rw [if_neg hsp]
        intro q hq
        by_cases hqf : q.2 = fio
        · rw [hqf]
          exact ⟨obj, hget, hsp⟩
        · exact hdeps q hq hqf

/-- `new_spec` on an unregistered key with both hooks succeeding:
the io is created, registered and carries the new spec. -/
theorem new_spec_of_none_ok {s : IOManager} {g : Option Group} {p : MPath}
    (hget : s.get_io g p = none) :
    s.new_spec g p true true =
      (⟨⟨assocSet s.ios.forward (get_io_key g p) (s.nextId + 1),
         assocSet s.ios.inverse (s.nextId + 1) (get_io_key g p)⟩,
        s.serializing,
        assocSet (assocSet s.heap (s.nextId + 1) ⟨p, []⟩) (s.nextId + 1)
          ⟨p, [s.nextId]⟩,
        assocSet s.specHeap s.nextId ⟨s.nextId + 1⟩,
        s.nextId + 1 + 1⟩,
       some s.nextId, none) := by
  have hbget : ({ s with nextId := s.nextId + 1 } : IOManager).get_io g p =
      none := hget
  unfold new_spec
  dsimp only
  rw [get_or_create_io_of_none hbget]
  dsimp only
  rw [if_pos rfl]
  dsimp only
  unfold add_spec heapGet
  dsimp only
  rw [assocGet_assocSet_self]
  dsimp only
  rw [if_neg (List.not_mem_nil s.nextId)]
  rw [if_pos rfl]
  rfl

/-- `new_spec` on an unregistered key whose `_on_load_value` raises: the
freshly created io is deregistered again and the exception propagates. -/
theorem new_spec_of_none_loadfail {s : IOManager} {g : Option Group}
    {p : MPath} (canAdd : Bool) (hget : s.get_io g p = none) :
    s.new_spec g p false canAdd =
      (⟨⟨assocDel (assocSet s.ios.forward (get_io_key g p) (s.nextId + 1))
           (get_io_key g p),
         assocDel (assocSet s.ios.inverse (s.nextId + 1) (get_io_key g p))
           (s.nextId + 1)⟩,
        s.serializing,
        assocSet s.heap (s.nextId + 1) ⟨p, []⟩,
        assocSet s.specHeap s.nextId ⟨s.nextId + 1⟩,
        s.nextId + 1 + 1⟩,
       none, some "load_value failed") := by
  have hbget : ({ s with nextId := s.nextId + 1 } : IOManager).get_io g p =
      none := hget
  unfold new_spec
  dsimp only
  rw [get_or_create_io_of_none hbget]
  dsimp only
  rw [if_neg Bool.false_ne_true]
  dsimp only
  unfold new_spec.rollback heapGet
  dsimp only
  rw [assocGet_assocSet_self]
  dsimp only
  rw [if_pos rfl]
  unfold BiDict.delitem
  dsimp only
  rw [assocGet_assocSet_self]

/-- `new_spec` on an unregistered key whose `add_spec` is refused by the
compatibility predicate: same rollback as a failing load. -/
theorem new_spec_of_none_addfail {s : IOManager} {g : Option Group}
    {p : MPath} (hget : s.get_io g p = none) :
    s.new_spec g p true false =
      (⟨⟨assocDel (assocSet s.ios.forward (get_io_key g p) (s.nextId + 1))
           (get_io_key g p),
         assocDel (assocSet s.ios.inverse (s.nextId + 1) (get_io_key g p))
           (s.nextId + 1)⟩,
        s.serializing,
        assocSet s.heap (s.nextId + 1) ⟨p, []⟩,
        assocSet s.specHeap s.nextId ⟨s.nextId + 1⟩,
        s.nextId + 1 + 1⟩,
       none, some "cannot add spec") := by
  have hbget : ({ s with nextId := s.nextId + 1 } : IOManager).get_io g p =
      none := hget
  unfold new_spec
  dsimp only
  rw [get_or_create_io_of_none hbget]
  dsimp only
  rw [if_pos rfl]
  dsimp only
  unfold add_spec heapGet
  dsimp only
  rw [assocGet_assocSet_self]
  dsimp only
  rw [if_neg (List.not_mem_nil s.nextId)]
  rw [if_neg Bool.false_ne_true]
  dsimp only
  unfold new_spec.rollback heapGet
  dsimp only
  rw [assocGet_assocSet_self]
  dsimp only
  rw [if_pos rfl]
  unfold BiDict.delitem
  dsimp only
  rw [assocGet_assocSet_self]

theorem new_spec_deps (s : IOManager) (g : Option Group) (p : MPath)
    (loadOk canAdd : Bool) (h : IndexWF s) (hd : DepsNonEmpty s) :
    DepsNonEmpty (s.new_spec g p loadOk canAdd).1 := by
  cases hget : s.get_io g p with
  | some fio =>
      have hbget : ({ s with nextId := s.nextId + 1 } : IOManager).get_io g p =
          some fio := hget
      unfold new_spec
      dsimp only
      rw [get_or_create_io_of_some hbget]
      dsimp only
      have hdfio : HasDeps s fio := hd _ (mem_of_assocGet_eq_some hget)
      have hdT : DepsNonEmpty
          ({ s with
              specHeap := (assocSet s.specHeap s.nextId ⟨fio⟩)
              nextId := s.nextId + 1 } : IOManager) := fun q hq => hd q hq
      cases loadOk with
      | true =>
          rw [if_pos rfl]
          dsimp only
          cases hadd : ({ s with
              specHeap := (assocSet s.specHeap s.nextId ⟨fio⟩)
              nextId := s.nextId + 1 } : IOManager).add_spec fio s.nextId
              canAdd with
          | mk s3 e3 =>
              cases e3 with
              | none =>
                  dsimp only
                  have hres := add_spec_deps
                    { s with
                      specHeap := (assocSet s.specHeap s.nextId ⟨fio⟩)
                      nextId := s.nextId + 1 } fio s.nextId canAdd hdT
                  rw [hadd] at hres
                  exact hres
              | some e4 =>
                  dsimp only
                  have h2 : (({ s with
                      specHeap := (assocSet s.specHeap s.nextId ⟨fio⟩)
                      nextId := s.nextId + 1 } : IOManager).add_spec fio
                      s.nextId canAdd).2 = some e4 := by rw [hadd]
                  have h1 := add_spec_fst_of_err h2
                  rw [hadd] at h1
                  dsimp only at h1
                  subst h1
                  exact rollback_deps _ g fio e4 h.1
                    (fun q hq _ => hdT q hq) (fun q hq _ => Or.inl hdfio)
      | false =>
          rw [if_neg Bool.false_ne_true]
          dsimp only
          exact rollback_deps _ g fio _ h.1
            (fun q hq _ => hdT q hq) (fun q hq _ => Or.inl hdfio)
  | none =>
      cases loadOk with
      | true =>
          cases canAdd with
          | true =>
              rw [new_spec_of_none_ok hget]
              intro q hq
              rcases mem_assocSet h.1.1 hq with heq | ⟨hmem, hne⟩
              · subst heq
                refine ⟨⟨p, [s.nextId]⟩, ?_, by simp⟩
                show assocGet (assocSet (assocSet s.heap _ _) _ _) _ = _
                exact assocGet_assocSet_self _ _ _
              · have hqlt := h.2.1 q hmem
                have hq1 : q.2 ≠ s.nextId + 1 := Nat.ne_of_lt (Nat.lt_succ_of_lt hqlt)
                obtain ⟨o, ho, hone⟩ := hd q hmem
                refine ⟨o, ?_, hone⟩
                show assocGet (assocSet (assocSet s.heap _ _) _ _) q.2 = some o
                rw [assocGet_assocSet_ne _ _ hq1, assocGet_assocSet_ne _ _ hq1]
                exact ho
          | false =>
              rw [new_spec_of_none_addfail hget]
              intro q hq
              obtain ⟨hmem1, hne1⟩ :=
                mem_assocDel (keysNodup_assocSet _ _ h.1.1) hq
              rcases mem_assocSet h.1.1 hmem1 with heq | ⟨hmem, hne⟩
              · rw [heq] at hne1
                exact absurd rfl hne1
              · have hqlt := h.2.1 q hmem
                have hq1 : q.2 ≠ s.nextId + 1 := Nat.ne_of_lt (Nat.lt_succ_of_lt hqlt)
                obtain ⟨o, ho, hone⟩ := hd q hmem
                refine ⟨o, ?_, hone⟩
                show assocGet (assocSet s.heap _ _) q.2 = some o
                rw [assocGet_assocSet_ne _ _ hq1]
                exact ho
      | false =>
          rw [new_spec_of_none_loadfail canAdd hget]
          intro q hq
          obtain ⟨hmem1, hne1⟩ :=
            mem_assocDel (keysNodup_assocSet _ _ h.1.1) hq
          rcases mem_assocSet h.1.1 hmem1 with heq | ⟨hmem, hne⟩
          · rw [heq] at hne1
            exact absurd rfl hne1
          · have hqlt := h.2.1 q hmem
            have hq1 : q.2 ≠ s.nextId + 1 := Nat.ne_of_lt (Nat.lt_succ_of_lt hqlt)
            obtain ⟨o, ho, hone⟩ := hd q hmem
            refine ⟨o, ?_, hone⟩
            show assocGet (assocSet s.heap _ _) q.2 = some o
            rw [assocGet_assocSet_ne _ _ hq1]
            exact ho

end IOManager

/-! ## Claim-level definitions -/

/-- Argument discipline of the source's call sites: `restore_io` is handed
freshly unpickled objects (not registered in the index), and `add_spec` is
handed a live spec object (its identity was previously allocated). -/
def OpSafe (s : IOManager) : MOp → Prop
  | MOp.opAddSpec _ sid _ => sid < s.nextId
  | MOp.opRestore _ ioId _ => assocGet s.ios.inverse ioId = none
  | _ => True

instance (s : IOManager) (op : MOp) : Decidable (OpSafe s op) := by
  cases op <;> dsimp [OpSafe] <;> infer_instance

/-- The further conditions under which the no-orphan invariant is
preserved: `get_or_create_io` must find an existing resource (a fresh
creation registers a resource with no dependents), and a restored
unpickled resource must carry its dependents. -/
def C2Safe (s : IOManager) : MOp → Prop
  | MOp.opGetOrCreate g p => (s.get_io g p).isSome = true
  | MOp.opRestore _ ioId obj =>
      assocGet s.ios.inverse ioId = none ∧ obj.specs ≠ []
  | _ => True

instance (s : IOManager) (op : MOp) : Decidable (C2Safe s op) := by
  cases op <;> dsimp [C2Safe] <;> infer_instance

def pxRel : MPath := ⟨false, "x.dat"⟩
def pxRel2 : MPath := ⟨false, "y.dat"⟩
def pxAbs : MPath := ⟨true, "/tmp/x"⟩

/-! ## Claim theorems -/

/-- C1 (amended): provided every insertion's resource is not already
registered under another key — true of `_new_io`'s fresh objects and of
`update_path`, which removes the old key first, and true of `restore_io`
exactly when its argument is an unregistered unpickled object — every
manager operation preserves the bidirectional-index invariant: forward
and inverse lookups are mutually inverse (`inverse[forward[k]] == k`) and
every registered resource appears under exactly one key. -/
theorem bidict_invariant_preserved (s : IOManager) (op : MOp)
    (h : IndexWF s) (hsafe : OpSafe s op) :
    IndexWF (applyOp s op).1 ∧
    (∀ q ∈ (applyOp s op).1.ios.forward,
      assocGet (applyOp s op).1.ios.inverse q.2 = some q.1) ∧
    UniqueVal (applyOp s op).1.ios := by
  have hwf : IndexWF (applyOp s op).1 := by
    cases op with
    | opGetOrCreate g p => exact IOManager.get_or_create_io_indexWF s g p h
    | opNewSpec g p loadOk canAdd =>
        exact IOManager.new_spec_indexWF s g p loadOk canAdd h
    | opAddSpec ioId sid canAdd =>
        exact IOManager.add_spec_indexWF s ioId sid canAdd h hsafe
    | opDelSpec sid => exact IOManager.del_spec_indexWF s sid h
    | opDelIo ioId => exact IOManager.del_io_indexWF s ioId h
    | opUpdatePath ioId p => exact IOManager.update_path_indexWF s ioId p h
    | opRestore g ioId obj =>
        exact IOManager.restore_io_indexWF s g ioId obj h hsafe
  exact ⟨hwf, hwf.1.2.2.1, biInv_uniqueVal hwf.1⟩

theorem bidict_invariant_preserved_witness :
    IndexWF (applyOp initManager (MOp.opGetOrCreate (some 0) pxRel)).1 ∧
    (∀ q ∈ (applyOp initManager
        (MOp.opGetOrCreate (some 0) pxRel)).1.ios.forward,
      assocGet (applyOp initManager
        (MOp.opGetOrCreate (some 0) pxRel)).1.ios.inverse q.2 = some q.1) ∧
    UniqueVal (applyOp initManager (MOp.opGetOrCreate (some 0) pxRel)).1.ios :=
  bidict_invariant_preserved initManager (MOp.opGetOrCreate (some 0) pxRel)
    (by decide) (by decide)

def cxObj : IOObj := ⟨pxRel, [5]⟩

def cxState1 : IOManager := (initManager.restore_io (some 0) 7 cxObj).1

def cxState2 : IOManager := (cxState1.restore_io (some 1) 7 cxObj).1

/-- C1 counterexample: restoring the same resource object under two
different groups (two index inserts of one resource under two keys)
completes without error and leaves `inverse[forward[(some 0, x.dat)]] =
(some 1, x.dat) ≠ (some 0, x.dat)`: the claimed invariant fails after an
index insert the source accepts silently. -/
theorem bidict_invariant_counterexample :
    (cxState1.restore_io (some 1) 7 cxObj).2 = none ∧
    assocGet cxState2.ios.forward ⟨some 0, pxRel⟩ = some 7 ∧
    assocGet cxState2.ios.inverse 7 = some ⟨some 1, pxRel⟩ ∧
    (⟨some 1, pxRel⟩ : IOKey) ≠ ⟨some 0, pxRel⟩ ∧
    ¬ (∀ q ∈ cxState2.ios.forward,
        assocGet cxState2.ios.inverse q.2 = some q.1) := by
  decide

/-- C2 (amended): the no-orphan-resource invariant (every registered
resource has a non-empty dependent set) is preserved by every public
manager operation except a `get_or_create_io` that creates a fresh
resource: `new_spec` (which either registers the spec or rolls the fresh
resource back), `del_spec`, `add_spec`, `update_path`, `_del_io`,
`get_or_create_io` on an existing key, and `restore_io` of an unpickled
resource that carries its dependents. -/
theorem deps_nonempty_preserved (s : IOManager) (op : MOp)
    (h : IndexWF s) (hd : DepsNonEmpty s) (hsafe : C2Safe s op) :
    DepsNonEmpty (applyOp s op).1 := by
  cases op with
  | opGetOrCreate g p =>
      cases hget : s.get_io g p with
      | some i =>
          show DepsNonEmpty _
          rw [show applyOp s (MOp.opGetOrCreate g p) = (s, none) by
            unfold applyOp
            dsimp only
            rw [IOManager.get_or_create_io_of_some hget]]
          exact hd
      | none =>
          exfalso
          have : (s.get_io g p).isSome = true := hsafe
          rw [hget] at this
          exact Bool.noConfusion this
  | opNewSpec g p loadOk canAdd =>
      exact IOManager.new_spec_deps s g p loadOk canAdd h hd
  | opAddSpec ioId sid canAdd => exact IOManager.add_spec_deps s ioId sid canAdd hd
  | opDelSpec sid => exact IOManager.del_spec_deps s sid h hd
  | opDelIo ioId => exact IOManager.del_io_deps s ioId hd
  | opUpdatePath ioId p => exact IOManager.update_path_deps s ioId p h hd
  | opRestore g ioId obj =>
      exact IOManager.restore_io_deps s g ioId obj h hd hsafe.1 hsafe.2

def regState : IOManager :=
  (initManager.new_spec (some 0) pxRel true true).1

theorem deps_nonempty_preserved_witness :
    DepsNonEmpty (applyOp regState (MOp.opDelSpec 0)).1 :=
  deps_nonempty_preserved regState (MOp.opDelSpec 0)
    (by decide) (by decide) (by decide)

/-- C2 counterexample: `get_or_create_io` is a public manager operation
that completes normally and registers a freshly created resource whose
dependent set is empty: immediately afterwards the index holds a resource
with no dependents. -/
theorem deps_nonempty_counterexample :
    (initManager.get_or_create_io (some 0) pxRel).2.2 = none ∧
    (initManager.get_or_create_io (some 0) pxRel).2.1 = some 0 ∧
    assocGet (initManager.get_or_create_io (some 0) pxRel).1.ios.forward
      ⟨some 0, pxRel⟩ = some 0 ∧
    (initManager.get_or_create_io (some 0) pxRel).1.heapGet 0 =
      some ⟨pxRel, []⟩ ∧
    ¬ DepsNonEmpty (initManager.get_or_create_io (some 0) pxRel).1 := by
  decide

/-- C3: when `new_spec` creates the resource in the same call (the key was
unregistered) and the load-value hook raises, the spec is not registered
(its identity appears in no resource's dependent set), the resource's key
is absent from the index after the call, no spec is returned, and the
originating exception propagates. -/
theorem new_spec_loadfail_rollback (s : IOManager) (g : Option Group)
    (p : MPath) (canAdd : Bool) (h : IndexWF s)
    (hget : s.get_io g p = none) :
    (s.new_spec g p false canAdd).2.2 = some "load_value failed" ∧
    (s.new_spec g p false canAdd).2.1 = none ∧
    (s.new_spec g p false canAdd).1.get_io g p = none ∧
    (∀ q ∈ (s.new_spec g p false canAdd).1.heap, s.nextId ∉ q.2.specs) := by
  rw [IOManager.new_spec_of_none_loadfail canAdd hget]
  refine ⟨rfl, rfl, ?_, ?_⟩
  · show assocGet (assocDel
      (assocSet s.ios.forward (IOManager.get_io_key g p) (s.nextId + 1))
      (IOManager.get_io_key g p)) (IOManager.get_io_key g p) = none
    exact assocGet_assocDel_self _ (keysNodup_assocSet _ _ h.1.1)
  · intro q hq hmem
    rcases mem_assocSet_weak hq with heq | hqm
    · rw [heq] at hmem
      exact List.not_mem_nil _ hmem
    · exact absurd ((h.2.2.1 q hqm).2 s.nextId hmem) (lt_irrefl _)

theorem new_spec_loadfail_rollback_witness :
    (initManager.new_spec (some 0) pxRel false true).2.2 =
      some "load_value failed" ∧
    (initManager.new_spec (some 0) pxRel false true).2.1 = none ∧
    (initManager.new_spec (some 0) pxRel false true).1.get_io (some 0)
      pxRel = none ∧
    (∀ q ∈ (initManager.new_spec (some 0) pxRel false true).1.heap,
      initManager.nextId ∉ q.2.specs) :=
  new_spec_loadfail_rollback initManager (some 0) pxRel true
    (by decide) (by decide)

open IOManager in
theorem get_io_key_path (g : Option Group) (p : MPath) :
    (get_io_key g p).path = p := by
  unfold IOManager.get_io_key
  split <;> rfl

/-- C4: `update_path` on a registered resource is a no-op when the new
path equals the current one; raises `ValueError("cannot change path")`
with the whole state unchanged when the resolved target key is occupied
(necessarily by a different resource); and otherwise succeeds, removing
the old key, updating the resource's path, inserting the new key, and
touching no other key. -/
theorem update_path_spec (s : IOManager) (ioId : IOId) (pNew : MPath)
    (kOld : IOKey) (obj : IOObj) (h : IndexWF s)
    (hreg : assocGet s.ios.inverse ioId = some kOld)
    (hobj : s.heapGet ioId = some obj) :
    (pNew = kOld.path → s.update_path ioId pNew = (s, none)) ∧
    (pNew ≠ kOld.path →
      ∀ j, assocGet s.ios.forward (IOManager.get_io_key kOld.group pNew) =
          some j →
        j ≠ ioId ∧
        s.update_path ioId pNew = (s, some "cannot change path")) ∧
    (pNew ≠ kOld.path →
      assocGet s.ios.forward (IOManager.get_io_key kOld.group pNew) = none →
      (s.update_path ioId pNew).2 = none ∧
      assocGet (s.update_path ioId pNew).1.ios.forward kOld = none ∧
      assocGet (s.update_path ioId pNew).1.ios.forward
        (IOManager.get_io_key kOld.group pNew) = some ioId ∧
      (s.update_path ioId pNew).1.heapGet ioId = some ⟨pNew, obj.specs⟩ ∧
      (∀ k, k ≠ kOld → k ≠ IOManager.get_io_key kOld.group pNew →
        assocGet (s.update_path ioId pNew).1.ios.forward k =
          assocGet s.ios.forward k)) := by
  have hfwdOld : assocGet s.ios.forward kOld = some ioId :=
    biInv_inv_fwd h.1 hreg
  refine ⟨?_, ?_, ?_⟩
  · intro hpe
    unfold IOManager.update_path
    rw [hreg]
    dsimp only
    rw [if_pos hpe]
  · intro hpe j hj
    refine ⟨?_, ?_⟩
    · intro hji
      rw [hji] at hj
      have h2 := biInv_fwd_inv h.1 hj
      rw [hreg] at h2
      have hk := Option.some.inj h2
      apply hpe
      have hkp := get_io_key_path kOld.group pNew
      rw [← hk] at hkp
      exact hkp.symm
    · unfold IOManager.update_path
      rw [hreg]
      dsimp only
      rw [if_neg hpe, if_pos (by rw [hj]; rfl)]
  · intro hpe hnone
    have hKne : IOManager.get_io_key kOld.group pNew ≠ kOld := by
      intro hh
      apply hpe
      have hkp := get_io_key_path kOld.group pNew
      rw [hh] at hkp
      exact hkp.symm
    have hequp : s.update_path ioId pNew =
        (⟨⟨assocSet (assocDel s.ios.forward kOld)
             (IOManager.get_io_key kOld.group pNew) ioId,
           assocSet (assocDel s.ios.inverse ioId) ioId
             (IOManager.get_io_key kOld.group pNew)⟩,
          s.serializing,
          assocSet s.heap ioId ⟨pNew, obj.specs⟩,
          s.specHeap,
          s.nextId⟩, none) := by
      unfold IOManager.update_path
      rw [hreg]
      dsimp only
      rw [if_neg hpe]
      rw [if_neg (by rw [hnone]; simp)]
      rw [IOManager.delitem_of_some hfwdOld]
      dsimp only
      rw [hobj]
      dsimp only
      unfold BiDict.setitem
      dsimp only
      rw [show assocGet (assocDel s.ios.forward kOld)
          (IOManager.get_io_key kOld.group pNew) = none from by
        rw [assocGet_assocDel_ne _ hKne]
        exact hnone]
    rw [hequp]
    refine ⟨rfl, ?_, ?_, ?_, ?_⟩
    · show assocGet (assocSet (assocDel s.ios.forward kOld)
        (IOManager.get_io_key kOld.group pNew) ioId) kOld = none
      rw [assocGet_assocSet_ne _ _ (Ne.symm hKne)]
      exact assocGet_assocDel_self _ h.1.1
    · exact assocGet_assocSet_self _ _ _
    · exact assocGet_assocSet_self _ _ _
    · intro k hk1 hk2
      show assocGet (assocSet (assocDel s.ios.forward kOld)
        (IOManager.get_io_key kOld.group pNew) ioId) k =
        assocGet s.ios.forward k
      rw [assocGet_assocSet_ne _ _ hk2]
      exact assocGet_assocDel_ne _ hk1

def c4State : IOManager := (initManager.get_or_create_io (some 0) pxRel).1

theorem update_path_spec_witness :
    (c4State.update_path 0 pxRel2).2 = none ∧
    assocGet (c4State.update_path 0 pxRel2).1.ios.forward
      ⟨some 0, pxRel⟩ = none ∧
    assocGet (c4State.update_path 0 pxRel2).1.ios.forward
      (IOManager.get_io_key (some 0) pxRel2) = some 0 ∧
    (c4State.update_path 0 pxRel2).1.heapGet 0 = some ⟨pxRel2, []⟩ := by
  have hmain := (update_path_spec c4State 0 pxRel2 ⟨some 0, pxRel⟩ ⟨pxRel, []⟩
    (by decide) (by decide) (by decide)).2.2 (by decide) (by decide)
  exact ⟨hmain.1, hmain.2.1, hmain.2.2.1, hmain.2.2.2.1⟩

/-- C6: `del_spec` on a registered spec completes without error, removes
the spec from its resource's dependent set, and — in the same call —
removes the resource's key from the index when the set becomes empty,
while a resource with remaining dependents stays registered under its
key, carrying exactly the remaining dependents. -/
theorem del_spec_spec (s : IOManager) (sid : SpecId) (sp : SpecObj)
    (obj : IOObj) (k0 : IOKey) (h : IndexWF s)
    (hsp : assocGet s.specHeap sid = some sp)
    (hobj : s.heapGet sp.io = some obj)
    (hmem : sid ∈ obj.specs)
    (hreg : assocGet s.ios.forward k0 = some sp.io) :
    (s.del_spec sid).2 = none ∧
    (s.del_spec sid).1.heapGet sp.io =
      some ⟨obj.path, obj.specs.erase sid⟩ ∧
    (obj.specs.erase sid = [] →
      ∀ k, assocGet (s.del_spec sid).1.ios.forward k ≠ some sp.io) ∧
    (obj.specs.erase sid ≠ [] →
      (s.del_spec sid).1.ios = s.ios ∧
      assocGet (s.del_spec sid).1.ios.forward k0 = some sp.io) := by
  obtain ⟨key, hfind⟩ : ∃ k,
      IOManager.del_io.findKeyFor s.ios.forward sp.io = some k := by
    cases hf : IOManager.del_io.findKeyFor s.ios.forward sp.io with
    | none =>
        exact absurd rfl
          (IOManager.findKeyFor_none hf (k0, sp.io)
            (mem_of_assocGet_eq_some hreg))
    | some k => exact ⟨k, rfl⟩
  have hkey : assocGet s.ios.forward key = some sp.io :=
    IOManager.findKeyFor_get h.1.1 hfind
  by_cases herase : obj.specs.erase sid = []
  · have hequ : s.del_spec sid =
        (⟨⟨assocDel s.ios.forward key, assocDel s.ios.inverse sp.io⟩,
          s.serializing,
          assocSet s.heap sp.io ⟨obj.path, obj.specs.erase sid⟩,
          s.specHeap,
          s.nextId⟩, none) := by
      unfold IOManager.del_spec
      rw [hsp]
      dsimp only
      rw [hobj]
      dsimp only
      rw [if_pos hmem, if_pos herase]
      unfold IOManager.del_io IOManager.heapGet
      dsimp only
      rw [assocGet_assocSet_self]
      dsimp only
      rw [if_neg (fun hh => hh herase)]
      rw [hfind]
      dsimp only
      rw [IOManager.delitem_of_some hkey]
    rw [hequ]
    refine ⟨rfl, ?_, ?_, fun hne => absurd herase hne⟩
    · exact assocGet_assocSet_self _ _ _
    · intro hz k hk
      by_cases hkk : k = key
      · rw [hkk] at hk
        rw [show assocGet (assocDel s.ios.forward key) key = none from
          assocGet_assocDel_self _ h.1.1] at hk
        exact Option.noConfusion hk
      · rw [show assocGet (assocDel s.ios.forward key) k =
            assocGet s.ios.forward k from assocGet_assocDel_ne _ hkk] at hk
        have h1 := biInv_fwd_inv h.1 hk
        have h2 := biInv_fwd_inv h.1 hkey
        rw [h2] at h1
        exact hkk (Option.some.inj h1).symm
  · have hequ : s.del_spec sid =
        (⟨s.ios,
          s.serializing,
          assocSet s.heap sp.io ⟨obj.path, obj.specs.erase sid⟩,
          s.specHeap,
          s.nextId⟩, none) := by
      unfold IOManager.del_spec
      rw [hsp]
      dsimp only
      rw [hobj]
      dsimp only
      rw [if_pos hmem, if_neg herase]
    rw [hequ]
    refine ⟨rfl, assocGet_assocSet_self _ _ _, fun hz => absurd hz herase,
      fun _ => ⟨rfl, hreg⟩⟩

def c6State : IOManager := (regState.new_spec (some 0) pxRel true true).1

theorem del_spec_spec_witness :
    (c6State.del_spec 2).2 = none ∧
    c6State.heapGet 1 = some ⟨pxRel, [0, 2]⟩ ∧
    (c6State.del_spec 2).1.heapGet 1 = some ⟨pxRel, [0]⟩ ∧
    assocGet (c6State.del_spec 2).1.ios.forward ⟨some 0, pxRel⟩ =
      some 1 ∧
    ((c6State.del_spec 2).1.del_spec 0).2 = none ∧
    (∀ k, assocGet ((c6State.del_spec 2).1.del_spec 0).1.ios.forward k ≠
      some 1) := by
  have h1 := del_spec_spec c6State 2 ⟨1⟩ ⟨pxRel, [0, 2]⟩ ⟨some 0, pxRel⟩
    (by decide) (by decide) (by decide) (by decide) (by decide)
  have h2 := del_spec_spec (c6State.del_spec 2).1 0 ⟨1⟩ ⟨pxRel, [0]⟩
    ⟨some 0, pxRel⟩ (by decide) (by decide) (by decide) (by decide)
    (by decide)
  refine ⟨h1.1, by decide, ?_, ?_, h2.1, ?_⟩
  · exact h1.2.1
  · exact (h1.2.2.2 (by decide)).2
  · exact h2.2.2.1 (by decide)

/-- C7: `_get_io_key` sends every absolute path to `(none, path)` whatever
the caller's group and every relative path to `(group, path)`; hence two
`get_or_create_io` calls with one absolute path from different groups
return the identical resource, while two calls with one relative path from
different groups return distinct resources. -/
theorem io_key_resolution :
    (∀ (g : Option Group) (p : MPath), p.isAbs = true →
      IOManager.get_io_key g p = ⟨none, p⟩) ∧
    (∀ (g : Option Group) (p : MPath), p.isAbs = false →
      IOManager.get_io_key g p = ⟨g, p⟩) ∧
    (∀ (s : IOManager) (gA gB : Option Group) (p : MPath), p.isAbs = true →
      ((s.get_or_create_io gA p).1.get_or_create_io gB p).2.1 =
        (s.get_or_create_io gA p).2.1 ∧
      (s.get_or_create_io gA p).2.1.isSome = true) ∧
    (∀ (s : IOManager) (gA gB : Option Group) (p : MPath), IndexWF s →
      p.isAbs = false → gA ≠ gB →
      ∀ i1 i2, (s.get_or_create_io gA p).2.1 = some i1 →
        ((s.get_or_create_io gA p).1.get_or_create_io gB p).2.1 = some i2 →
        i1 ≠ i2) := by
  have hkeyAbs : ∀ (g : Option Group) (p : MPath), p.isAbs = true →
      IOManager.get_io_key g p = ⟨none, p⟩ := by
    intro g p habs
    unfold IOManager.get_io_key
    rw [habs]
    rw [if_pos rfl]
  have hkeyRel : ∀ (g : Option Group) (p : MPath), p.isAbs = false →
      IOManager.get_io_key g p = ⟨g, p⟩ := by
    intro g p hrel
    unfold IOManager.get_io_key
    rw [hrel]
    rw [if_neg Bool.false_ne_true]
  refine ⟨hkeyAbs, hkeyRel, ?_, ?_⟩
  · intro s gA gB p habs
    have hks : IOManager.get_io_key gB p = IOManager.get_io_key gA p := by
      rw [hkeyAbs gA p habs, hkeyAbs gB p habs]
    cases hget : s.get_io gA p with
    | some i =>
        rw [IOManager.get_or_create_io_of_some hget]
        have hgetB : s.get_io gB p = some i := by
          show assocGet s.ios.forward (IOManager.get_io_key gB p) = some i
          rw [hks]
          exact hget
        rw [IOManager.get_or_create_io_of_some hgetB]
        exact ⟨rfl, rfl⟩
    | none =>
        rw [IOManager.get_or_create_io_of_none hget]
        have hgetB : ∀ t : IOManager, t.ios.forward =
            assocSet s.ios.forward (IOManager.get_io_key gA p) s.nextId →
            t.get_io gB p = some s.nextId := by
          intro t ht
          show assocGet t.ios.forward (IOManager.get_io_key gB p) =
            some s.nextId
          rw [ht, hks]
          exact assocGet_assocSet_self _ _ _
        rw [IOManager.get_or_create_io_of_some (hgetB _ rfl)]
        exact ⟨rfl, rfl⟩
  · intro s gA gB p h hrel hAB i1 i2 h1 h2
    have hkne : IOManager.get_io_key gB p ≠ IOManager.get_io_key gA p := by
      rw [hkeyRel gA p hrel, hkeyRel gB p hrel]
      intro hh
      cases hh
      exact hAB rfl
    cases hget : s.get_io gA p with
    | some j1 =>
        rw [IOManager.get_or_create_io_of_some hget] at h1 h2
        dsimp only at h1
        cases h1
        cases hget2 : s.get_io gB p with
        | some j2 =>
            rw [IOManager.get_or_create_io_of_some hget2] at h2
            dsimp only at h2
            cases h2
            intro heq
            subst heq
            have ha := biInv_fwd_inv h.1 hget
            have hb := biInv_fwd_inv h.1 hget2
            rw [ha] at hb
            exact hkne (Option.some.inj hb).symm
        | none =>
            rw [IOManager.get_or_create_io_of_none hget2] at h2
            dsimp only at h2
            cases h2
            have hlt := h.2.1 _ (mem_of_assocGet_eq_some hget)
            exact Nat.ne_of_lt hlt
    | none =>
        rw [IOManager.get_or_create_io_of_none hget] at h1 h2
        dsimp only at h1
        cases h1
        have hget2 : ∀ t : IOManager, t.ios.forward =
            assocSet s.ios.forward (IOManager.get_io_key gA p) s.nextId →
            t.get_io gB p = assocGet s.ios.forward
              (IOManager.get_io_key gB p) := by
          intro t ht
          show assocGet t.ios.forward (IOManager.get_io_key gB p) = _
          rw [ht]
          exact assocGet_assocSet_ne _ _ hkne
        cases hgB : assocGet s.ios.forward (IOManager.get_io_key gB p) with
        | some j2 =>
            rw [IOManager.get_or_create_io_of_some
              ((hget2 _ rfl).trans hgB)] at h2
            dsimp only at h2
            cases h2
            have hlt := h.2.1 _ (mem_of_assocGet_eq_some hgB)
            exact (Nat.ne_of_lt hlt).symm
        | none =>
            rw [IOManager.get_or_create_io_of_none
              ((hget2 _ rfl).trans hgB)] at h2
            dsimp only at h2
            cases h2
            exact Nat.ne_of_lt (Nat.lt_succ_self _)

theorem io_key_resolution_witness :
    IOManager.get_io_key (some 0) pxAbs = ⟨none, pxAbs⟩ ∧
    IOManager.get_io_key (some 0) pxRel = ⟨some 0, pxRel⟩ ∧
    ((initManager.get_or_create_io (some 0) pxAbs).1.get_or_create_io
      (some 1) pxAbs).2.1 =
      (initManager.get_or_create_io (some 0) pxAbs).2.1 ∧
    (0 : IOId) ≠ 1 := by
  refine ⟨io_key_resolution.1 (some 0) pxAbs rfl,
    io_key_resolution.2.1 (some 0) pxRel rfl,
    (io_key_resolution.2.2.1 initManager (some 0) (some 1) pxAbs rfl).1,
    io_key_resolution.2.2.2 initManager (some 0) (some 1) pxRel
      (by decide) rfl (by decide) 0 1 (by decide) (by decide)⟩

/-- C8: for every choice of the abstract hooks, `update_spec_value`
raises exactly when `_can_update_value` is false — and then returns the
state untouched — and otherwise applies the resource's `_on_update_value`
hook strictly before the spec's own. -/
theorem update_spec_value_spec {V K σ : Type}
    (can_update_value : V → K → Bool)
    (io_on_update_value spec_on_update_value : V → K → σ → σ)
    (value : V) (kwargs : K) (st : σ) :
    ((update_spec_value can_update_value io_on_update_value
        spec_on_update_value value kwargs st).2 = none ↔
      can_update_value value kwargs = true) ∧
    (can_update_value value kwargs = false →
      update_spec_value can_update_value io_on_update_value
        spec_on_update_value value kwargs st =
        (st, some "does not allow to replace its value")) ∧
    (can_update_value value kwargs = true →
      update_spec_value can_update_value io_on_update_value
        spec_on_update_value value kwargs st =
        (spec_on_update_value value kwargs
          (io_on_update_value value kwargs st), none)) := by
  unfold update_spec_value
  cases hcan : can_update_value value kwargs with
  | true =>
      rw [if_pos rfl]
      exact ⟨by simp, fun hh => Bool.noConfusion hh, fun _ => rfl⟩
  | false =>
      rw [if_neg Bool.false_ne_true]
      exact ⟨by simp, fun _ => rfl, fun hh => Bool.noConfusion hh⟩

theorem update_spec_value_spec_witness :
    ((update_spec_value (fun (v : Nat) (_ : Nat) => v > 0)
        (fun _ _ s => s + 1) (fun _ _ s => s * 2) 5 0 10).2 = none ↔
      (5 > 0 : Bool) = true) ∧
    update_spec_value (fun (v : Nat) (_ : Nat) => v > 0)
      (fun _ _ s => s + 1) (fun _ _ s => s * 2) 5 0 10 = (22, none) ∧
    update_spec_value (fun (v : Nat) (_ : Nat) => v > 0)
      (fun _ _ s => s + 1) (fun _ _ s => s * 2) 0 0 10 =
      (10, some "does not allow to replace its value") := by
  have h1 := update_spec_value_spec (fun (v : Nat) (_ : Nat) => v > 0)
    (fun _ _ s => s + 1) (fun _ _ s => s * 2) 5 0 10
  have h2 := update_spec_value_spec (fun (v : Nat) (_ : Nat) => v > 0)
    (fun _ _ s => s + 1) (fun _ _ s => s * 2) 0 0 10
  exact ⟨h1.1, h1.2.2 (by decide), h2.2.1 (by decide)⟩

/-- C9: `is_in_root` returns false exactly when the left-to-right scan of
the path's `"/"`-separated segments — `".."` decrementing, `"."` neutral,
every other segment incrementing — drives the depth counter negative;
and the three stated examples evaluate as the specification says. -/
theorem is_in_root_spec :
    (∀ p : String,
      (is_in_root p = false ↔ scanGoesNegative (splitSlash p) 0 = true)) ∧
    is_in_root "a/../../b" = false ∧
    is_in_root "a/b/../c" = true ∧
    is_in_root "./a" = true := by
  refine ⟨?_, by decide, by decide, by decide⟩
  intro p
  rw [is_in_root, is_in_rootAux_eq_not_scanGoesNegative]
  cases scanGoesNegative (splitSlash p) 0 <;> simp

/-- C10: `__setstate__` accepts legacy state dictionaries: when the state
lacks `"_io"` the bound resource is read from the historical `"_data"`
key, and when it lacks `"is_hidden"` the hidden flag defaults to `False`
(both missing is a `KeyError`), in every serialization mode. -/
theorem setstate_legacy_fields :
    (∀ (m : Option Bool) (d : IOId) (hid : Option Bool),
      ((spec_setstate ⟨m, none, some d, hid⟩).1.map fun r => r.1) =
        some ⟨d, hid.getD false⟩) ∧
    (∀ (m : Option Bool) (i : IOId),
      ((spec_setstate ⟨m, some i, none, none⟩).1.map fun r => r.1) =
        some ⟨i, false⟩) ∧
    (∀ (m : Option Bool) (hid : Option Bool),
      spec_setstate ⟨m, none, none, hid⟩ = (none, some "KeyError")) := by
  refine ⟨?_, ?_, ?_⟩
  · intro m d hid
    cases m with
    | none => rfl
    | some b => cases b <;> rfl
  · intro m i
    cases m with
    | none => rfl
    | some b => cases b <;> rfl
  · intro m hid
    cases m with
    | none => rfl
    | some b => cases b <;> rfl

/-- C5 evidence: with the serialization context unset (`serializing is
None`), `__getstate__` raises `RuntimeError("must not happen")`, but
`__setstate__` returns normally with no hook invoked — the source builds
the `RuntimeError` on line 373 without `raise`, contradicting the
symmetric `__getstate__` and its own "must not happen" intent. -/
theorem setstate_unset_context_silently_completes :
    spec_getstate none = (none, some "must not happen") ∧
    (∀ (i : IOId) (hid : Option Bool),
      spec_setstate ⟨none, some i, none, hid⟩ =
        (some (⟨i, hid.getD false⟩, SerHook.noHook), none)) ∧
    (∀ (i : IOId) (hid : Option Bool),
      (spec_setstate ⟨none, some i, none, hid⟩).2 = none) := by
  exact ⟨rfl, fun i hid => rfl, fun i hid => rfl⟩

end Modelx
